import Mathlib

/-!
Shallow embedding of the `evs` reconstruction engine (github.com/js-arias/evs).

The embedding follows the Go sources:
  * `bitfield/bitfield.go` — bitfields as lists of 16-bit words;
  * `tree/tree.go`        — the phylogenetic tree (pointer links become
    integer indices: `anc`, `children` in first/sister order);
  * `raster/raster.go`    — the per-taxon rasterized ranges;
  * `events/events.go`    — reconstructions, the four cost functions,
    `optimize`, `DownPass`, `OR`, `Randomize`, `Copy`, and the event
    letter/set mapping of `Read`/`Write`;
  * `events.go` (main)    — the `flipRecons` inner loop.

Go `float64` cost arithmetic is idealized as exact rational arithmetic
(`ℚ`); Go `int` values that can go negative are `ℤ`.  In-place mutation
of the per-node record slice becomes functional update of a map
`Nat → NodeRec`.  The random shuffles and draws of the searcher are
modelled by oracle functions supplying the chosen orders/draws, and the
theorems quantify over all oracles.
-/

namespace Evs

/-- Popcount of a 16-bit word, the `bitCount` table of `bitfield.go`
restricted to its domain of 16-bit words. -/
def popCount16 (n : Nat) : Nat :=
  n % 2 + n / 2 % 2 + n / 4 % 2 + n / 8 % 2 +
  n / 16 % 2 + n / 32 % 2 + n / 64 % 2 + n / 128 % 2 +
  n / 256 % 2 + n / 512 % 2 + n / 1024 % 2 + n / 2048 % 2 +
  n / 4096 % 2 + n / 8192 % 2 + n / 16384 % 2 + n / 32768 % 2

/-- A bitfield: a list of 16-bit words (`Bitfield []uint16`). -/
def BField := List Nat

instance : DecidableEq BField := by
  unfold BField; infer_instance

/-- `Bitfield.Count`: total popcount. -/
def bfCount (f : BField) : Nat := (f.map popCount16).sum

/-- `Bitfield.Common`: number of bits on in both fields (iterates over
the words of the second argument, as the Go code iterates over `b`). -/
def bfCommon (f b : BField) : Nat :=
  (List.zipWith (fun x y => popCount16 (Nat.land x y)) f b).sum

/-- `Bitfield.Union` performed on a copy: word-wise or over the words of
`b`; words of `f` beyond the length of `b` are kept. -/
def bfUnion : BField → BField → BField
  | f, [] => f
  | [], _ :: _ => []
  | x :: f, y :: b => Nat.lor x y :: bfUnion f b

/-- Go `copy(dst, src)`: overwrite the first `min |dst| |src|` words of
`dst` with those of `src`, keeping `dst`'s length. -/
def bfCopy (dst src : BField) : BField :=
  src.take dst.length ++ dst.drop src.length

/-- An all-zero bitfield of `w` words (`make(bitfield.Bitfield, w)` or
the result of `Reset`). -/
def bfZero (w : Nat) : BField := List.replicate w 0

/-- A tree node (`tree.Node`); the `Anc`/`First`/`Sister` pointers are
replaced by the ancestor index and the list of child indices in
first/sister order. -/
structure TNode where
  id : String
  anc : Option Nat
  children : List Nat
  term : String
  len : ℚ
  deriving DecidableEq

instance : Inhabited TNode := ⟨⟨"", none, [], "", 1⟩⟩

/-- A phylogenetic tree (`tree.Tree`); `nodes` is indexed by node index,
the root having index 0. -/
structure PTree where
  id : String
  nodes : List TNode
  deriving DecidableEq

/-- Node `i` of tree `t` (out-of-range indices, which make the Go code
panic, give the default node). -/
def nodeOf (t : PTree) (i : Nat) : TNode := t.nodes.getD i default

/-- Branch length of node `i` (`Node.Len`). -/
def nodeLen (t : PTree) (i : Nat) : ℚ := (nodeOf t i).len

/-- A rasterized taxon (`raster.Taxon`). -/
structure RTaxon where
  name : String
  obs : BField
  fill : BField
  deriving DecidableEq

/-- A rasterized data set (`raster.Raster`); only the fields the
reconstruction engine reads are kept: the number of bitfield words and
the name → taxon map (keys stored lowercased, as `Rasterize` stores
them). -/
structure Raster where
  fields : Nat
  taxa : List (String × RTaxon)
  deriving DecidableEq

/-- `Raster.Taxon`: look up a taxon by lowercased name. -/
def taxonOf (r : Raster) (name : String) : Option RTaxon :=
  r.taxa.lookup name.toLower

/-! Event flags, the `iota` constants of `events.go`. -/

def Undef : Nat := 0
def Vic : Nat := 1
def SympU : Nat := 2
def SympL : Nat := 3
def SympR : Nat := 4
def PointL : Nat := 5
def PointR : Nat := 6
def FoundL : Nat := 7
def FoundR : Nat := 8

/-- `events.Events()`: the list of all eight event flags. -/
def Events : List Nat :=
  [Vic, SympU, SympL, SympR, PointL, PointR, FoundL, FoundR]

/-- A per-node reconstruction record (`events.Node`); the `Node` pointer
is implicit in the index. -/
structure NodeRec where
  obs : BField
  fill : BField
  setL : Int
  setR : Int
  cost : ℚ
  flag : Nat
  deriving DecidableEq

/-- The zero value of `events.Node` (a fresh slice entry). -/
def zeroRec : NodeRec := ⟨[], [], 0, 0, 0, Undef⟩

instance : Inhabited NodeRec := ⟨zeroRec⟩

/-- A reconstruction (`events.Recons`); the record slice becomes the map
`Rec : Nat → NodeRec`, meaningful on indices below the number of tree
nodes. -/
structure Recons where
  ID : String
  tree : PTree
  raster : Raster
  Rec : Nat → NodeRec
  UseLen : Bool
  Size : ℚ
  SympSize : ℚ
  VicC : ℚ
  SympC : ℚ
  PointC : ℚ
  FoundC : ℚ

/-- `Recons.Cost`: the root cost. -/
def Cost (r : Recons) : ℚ := (r.Rec 0).cost

/-- `Recons.vicariance`: cost of a disjunct set at node `n`
(`events.go` lines 645-679). -/
def vicariance (r : Recons) (n : Nat) : ℚ :=
  let setL := (r.Rec n).setL.toNat
  let setR := (r.Rec n).setR.toNat
  let cellL : ℤ := bfCount (r.Rec setL).obs
  let comL : ℤ := bfCommon (r.Rec setL).obs (r.Rec setR).fill
  let onlyL : ℤ := cellL - comL
  let cellR : ℤ := bfCount (r.Rec setR).obs
  let comR : ℤ := bfCommon (r.Rec setR).obs (r.Rec setL).fill
  let onlyR : ℤ := cellR - comR
  let adj : ℤ × ℤ :=
    if onlyL = 0 ∨ onlyR = 0 then
      if onlyL ≠ 0 then (comL, comR + 1)
      else if onlyR ≠ 0 then (comL + 1, comR)
      else (comL + 1, comR + 1)
    else (comL, comR)
  let costL : ℚ := (adj.1 : ℚ)
  let costR : ℚ := (adj.2 : ℚ)
  let costL := if r.UseLen then costL / nodeLen r.tree setL else costL
  let costR := if r.UseLen then costR / nodeLen r.tree setR else costR
  costL + costR + r.VicC

/-- `Recons.sympatry`: cost of full sympatry at node `n`
(`events.go` lines 615-642). -/
def sympatry (r : Recons) (n : Nat) : ℚ :=
  let setL := (r.Rec n).setL.toNat
  let setR := (r.Rec n).setR.toNat
  let cellN : ℤ := bfCount (r.Rec n).obs
  let cellL : ℤ := bfCount (r.Rec setL).obs
  let onlyL : ℤ := cellL - bfCommon (r.Rec setL).obs (r.Rec n).fill
  let notL : ℤ := cellN - bfCommon (r.Rec n).obs (r.Rec setL).fill
  let costL : ℚ := ((onlyL + notL : ℤ) : ℚ)
  let cellR : ℤ := bfCount (r.Rec setR).obs
  let onlyR : ℤ := cellR - bfCommon (r.Rec setR).obs (r.Rec n).fill
  let notR : ℤ := cellN - bfCommon (r.Rec n).obs (r.Rec setR).fill
  let costR : ℚ := ((onlyR + notR : ℤ) : ℚ)
  let costL := if r.UseLen then costL / nodeLen r.tree setL else costL
  let costR := if r.UseLen then costR / nodeLen r.tree setR else costR
  let extra : ℚ :=
    if 0 < r.SympSize then (bfCount (r.Rec n).obs : ℚ) / r.SympSize else 0
  costL + costR + r.SympC + extra

/-- `Recons.point`: cost of a point sympatry event at node `n` with
point daughter `p` (`events.go` lines 596-613). -/
def point (r : Recons) (n p : Nat) : ℚ :=
  let comP : ℤ := bfCommon (r.Rec p).obs (r.Rec n).fill
  let cellP : ℤ := bfCount (r.Rec p).obs
  let onlyP : ℤ := cellP - comP
  let cellP : ℤ := if comP = 0 then cellP + 2 else cellP
  let cost : ℚ := ((cellP + onlyP - 1 : ℤ) : ℚ)
  let cost := if r.UseLen then cost / nodeLen r.tree p else cost
  cost + r.PointC

/-- `Recons.founder`: cost of a founder event at node `n` with founder
daughter `f` (`events.go` lines 579-594). -/
def founder (r : Recons) (n f : Nat) : ℚ :=
  let comF : ℤ := bfCommon (r.Rec f).obs (r.Rec n).fill
  let cellF : ℤ := bfCount (r.Rec f).obs
  let onlyF : ℤ := cellF - comF
  let cellF : ℤ := if onlyF = 0 then cellF + 2 else cellF
  let cost : ℚ := ((cellF + comF - 1 : ℤ) : ℚ)
  let cost := if r.UseLen then cost / nodeLen r.tree f else cost
  cost + r.FoundC

/-- Per-node size penalty `(|Obs|−1)/Size`, multiplied by the branch
length under `UseLen` (the common tail of `OR` and `optimize`). -/
def sizePenalty (useLen : Bool) (size : ℚ) (obs : BField) (len : ℚ) : ℚ :=
  if 0 < size then
    let c : ℚ := ((bfCount obs : ℤ) - 1 : ℤ) / size
    if useLen then c * len else c
  else 0

/-- The new `(Obs, Fill, Cost)` triple computed by `Recons.optimize`
for an internal node `n` (`events.go` lines 499-577).  The record's
slices are reset before any read, as in the source; aliasing of
`SetL`/`SetR` onto `n` itself (excluded by the `GoodSets` invariant
below) is not micro-modelled beyond that reset. -/
def optimizeVals (r : Recons) (n : Nat) : BField × BField × ℚ :=
  let nd := nodeOf r.tree n
  let cur := r.Rec n
  let F := r.raster.fields
  if cur.setL = -1 ∨ cur.flag = Undef then
    (nd.children.foldl (fun b c => bfUnion b (r.Rec c).obs) (bfZero F),
     nd.children.foldl (fun b c => bfUnion b (r.Rec c).fill) (bfZero F),
     nd.children.foldl (fun q c => q + (r.Rec c).cost) 0)
  else
    let cur0 : NodeRec := { cur with obs := bfZero F, fill := bfZero F, cost := 0 }
    let sL := cur.setL.toNat
    let sR := cur.setR.toNat
    let rR : Recons := { r with Rec := Function.update r.Rec n cur0 }
    let base : ℚ := (rR.Rec sL).cost + (rR.Rec sR).cost
    let pair : BField × BField :=
      if cur.flag = Vic ∨ cur.flag = SympU then
        (bfUnion (bfCopy cur0.obs (rR.Rec sL).obs) (rR.Rec sR).obs,
         bfUnion (bfCopy cur0.fill (rR.Rec sL).fill) (rR.Rec sR).fill)
      else if cur.flag = SympL ∨ cur.flag = PointR ∨ cur.flag = FoundR then
        (bfCopy cur0.obs (rR.Rec sL).obs, bfCopy cur0.fill (rR.Rec sL).fill)
      else if cur.flag = SympR ∨ cur.flag = PointL ∨ cur.flag = FoundL then
        (bfCopy cur0.obs (rR.Rec sR).obs, bfCopy cur0.fill (rR.Rec sR).fill)
      else (cur0.obs, cur0.fill)
    let r1 : Recons :=
      { r with Rec := Function.update r.Rec n { cur0 with obs := pair.1, fill := pair.2 } }
    let evc : ℚ :=
      if cur.flag = Vic then vicariance r1 n
      else if cur.flag = SympU ∨ cur.flag = SympL ∨ cur.flag = SympR then sympatry r1 n
      else if cur.flag = PointL then point r1 n sL
      else if cur.flag = PointR then point r1 n sR
      else if cur.flag = FoundL then founder r1 n sL
      else if cur.flag = FoundR then founder r1 n sR
      else 0
    (pair.1, pair.2, base + evc + sizePenalty r.UseLen r.Size pair.1 nd.len)

/-- The record written at node `n` by `Recons.optimize`: terminals are
left untouched, otherwise `Obs`, `Fill`, `Cost` are recomputed. -/
def optimizeRec (r : Recons) (n : Nat) : NodeRec :=
  if (nodeOf r.tree n).children = [] then r.Rec n
  else
    { r.Rec n with
      obs := (optimizeVals r n).1,
      fill := (optimizeVals r n).2.1,
      cost := (optimizeVals r n).2.2 }

/-- `Recons.optimize`: recompute the record of node `n` in place. -/
def optimize (r : Recons) (n : Nat) : Recons :=
  { r with Rec := Function.update r.Rec n (optimizeRec r n) }

/-- The ancestor walk `for v := ...; v != nil; v = v.Anc` of `DownPass`,
with explicit fuel; under `wfTree` the fuel `n+1` reaches the root. -/
def ancChainAux (t : PTree) : Nat → Nat → List Nat
  | 0, _ => []
  | fuel + 1, n =>
    n :: (match (nodeOf t n).anc with
          | none => []
          | some a => ancChainAux t fuel a)

/-- The node `n` and all its ancestors up to the root, in visit order. -/
def ancChain (t : PTree) (n : Nat) : List Nat := ancChainAux t (n + 1) n

/-- The optimize loop of `DownPass`, with explicit fuel. -/
def downPassAux (fuel : Nat) (r : Recons) (n : Nat) : Recons :=
  match fuel with
  | 0 => r
  | fuel + 1 =>
    match (nodeOf r.tree n).anc with
    | none => optimize r n
    | some a => downPassAux fuel (optimize r n) a

/-- `Recons.DownPass`: optimize the path from node `n` to the root.
The Go method also returns the new root cost (`Cost`). -/
def DownPass (r : Recons) (n : Nat) : Recons := downPassAux (n + 1) r n

/-- The accumulator of the child loop in `OR` for an internal node:
running `Obs`/`Fill`/`Cost` plus the `setL`/`setR`/`numDesc` tally. -/
structure ORAcc where
  obs : BField
  fill : BField
  cost : ℚ
  setL : Option Nat
  setR : Option Nat
  numDesc : Nat
  deriving DecidableEq

/-- One iteration of the child loop in `OR` (`events.go` lines 119-132). -/
def orChild (r : Recons) (a : ORAcc) (c : Nat) : ORAcc :=
  let a1 : ORAcc :=
    { a with obs := bfUnion a.obs (r.Rec c).obs,
             fill := bfUnion a.fill (r.Rec c).fill,
             cost := a.cost + (r.Rec c).cost }
  if bfCount (r.Rec c).obs = 0 then a1
  else
    { a1 with
      setL := if a.setL = none then some c else a.setL
      setR := if a.setL ≠ none ∧ a.setR = none then some c else a.setR
      numDesc := a1.numDesc + 1 }

/-- The record written at node `i` by the body of the `OR` loop
(`events.go` lines 94-155). -/
def orStepRec (r : Recons) (i : Nat) : NodeRec :=
  let nd := nodeOf r.tree i
  let F := r.raster.fields
  let base : NodeRec :=
    { obs := bfZero F, fill := bfZero F, setL := -1, setR := -1,
      cost := 0, flag := Undef }
  if nd.term ≠ "" then
    match taxonOf r.raster nd.term with
    | none => base
    | some tx =>
      let obs := bfCopy base.obs tx.obs
      let fill := bfCopy base.fill tx.fill
      { base with
        obs := obs,
        fill := fill,
        cost := sizePenalty r.UseLen r.Size obs nd.len }
  else
    let acc := nd.children.foldl (orChild r)
      { obs := bfZero F, fill := bfZero F, cost := 0,
        setL := none, setR := none, numDesc := 0 }
    if acc.numDesc ≠ 2 then
      { base with obs := acc.obs, fill := acc.fill, cost := acc.cost }
    else
      let sL := acc.setL.getD 0
      let sR := acc.setR.getD 0
      let rec1 : NodeRec :=
        { base with
          obs := acc.obs,
          fill := acc.fill,
          cost := acc.cost,
          setL := Int.ofNat sL,
          setR := Int.ofNat sR }
      let rv : Recons := { r with Rec := Function.update r.Rec i rec1 }
      let csz := sizePenalty r.UseLen r.Size acc.obs nd.len
      let cv := vicariance rv i + csz
      let cs := sympatry rv i + csz
      if cv < cs then { rec1 with flag := Vic, cost := rec1.cost + cv }
      else { rec1 with flag := SympU, cost := rec1.cost + cs }

/-- One iteration of the `OR` loop: write the record of node `i`. -/
def orStep (r : Recons) (i : Nat) : Recons :=
  { r with Rec := Function.update r.Rec i (orStepRec r i) }

/-- `events.OR`: the initial OR reconstruction, visiting nodes in
reverse index order. -/
def OR (ras : Raster) (t : PTree) (size sympSize : ℚ) (useLen : Bool) : Recons :=
  ((List.range t.nodes.length).reverse).foldl orStep
    { ID := "or", tree := t, raster := ras, Rec := fun _ => zeroRec,
      UseLen := useLen, Size := size, SympSize := sympSize,
      VicC := 1, SympC := 1, PointC := 1, FoundC := 1 }

/-- The children of a node that have a nonempty `Obs` — the effective
children tallied by the `OR` loop. -/
def effectiveChildren (r : Recons) (l : List Nat) : List Nat :=
  l.filter (fun c => bfCount (r.Rec c).obs ≠ 0)

/-- The `OR` loop run over nodes `k-1, ..., 0` (so `OR = orDown init N`). -/
def orDown (r : Recons) (k : Nat) : Recons :=
  ((List.range k).reverse).foldl orStep r

/-- Set the event flag of node `n` (`r.Rec[n].Flag = e`). -/
def setFlag (r : Recons) (n e : Nat) : Recons :=
  { r with Rec := Function.update r.Rec n { r.Rec n with flag := e } }

/-- `events.Randomize`: for every node, draw `draw i ∈ [0,100)`; when
the node is optimizable and the draw is not above `prob`, set its flag
to `evs[pick i]` and run `DownPass`.  The random draws of `rand.Intn`
are supplied by the oracles `draw` and `pick` (`pick i` below
`evs.length`; `rand.Intn(len(evs))` panics on an empty list). -/
def Randomize (r : Recons) (prob : Int) (evs : List Nat)
    (draw pick : Nat → Nat) : Recons :=
  if prob = 0 then r
  else
    let prob := if prob < 0 ∨ 100 < prob then 10 else prob
    (List.range r.tree.nodes.length).foldl
      (fun r i =>
        if (r.Rec i).setL = -1 then r
        else if prob < (draw i : Int) then r
        else DownPass (setFlag r i (evs.getD (pick i) Undef)) i) r

/-- `events.Copy`: copy `cp` into `r`; the Go code panics when the two
reconstructions do not share their tree or raster (modelled as `none`;
sharing of the Go pointers is modelled as structural equality). -/
def Copy (r cp : Recons) : Option Recons :=
  if r.tree ≠ cp.tree then none
  else if r.raster ≠ cp.raster then none
  else some
    { ID := cp.ID, tree := r.tree, raster := r.raster,
      UseLen := cp.UseLen, Size := cp.Size, VicC := cp.VicC,
      SympC := cp.SympC, FoundC := cp.FoundC, PointC := cp.PointC,
      SympSize := cp.SympSize,
      Rec := fun i =>
        if i < cp.tree.nodes.length then
          { obs := bfCopy (r.Rec i).obs (cp.Rec i).obs,
            fill := bfCopy (r.Rec i).fill (cp.Rec i).fill,
            setL := (cp.Rec i).setL, setR := (cp.Rec i).setR,
            cost := (cp.Rec i).cost, flag := (cp.Rec i).flag }
        else r.Rec i }

/-- Outcome of one row of the event table in `events.Read`: an event
flag, a silently skipped row (`continue`), or a row error. -/
inductive RowResult where
  | ok (e : Nat)
  | skip
  | fail
  deriving DecidableEq

/-- The event/set switch of `events.Read` (lines 242-275): given the IDs
of the two effective children `SetL`/`SetR` and the row's `Event` and
`Set` columns, the resulting event flag. -/
def readEvent (lid rid ev setv : String) : RowResult :=
  let e := ev.toLower
  if e = "v" then .ok Vic
  else if e = "s" then
    (if setv = "*" then .ok SympU
     else if lid = setv then .ok SympL
     else if rid = setv then .ok SympR
     else .skip)
  else if e = "p" then
    (if lid = setv then .ok PointR
     else if rid = setv then .ok PointL
     else .fail)
  else if e = "f" then
    (if lid = setv then .ok FoundR
     else if rid = setv then .ok FoundL
     else .fail)
  else .fail

/-- The `Event` column emitted by `events.Write` (lines 465-475). -/
def writeEventLetter (flag : Nat) : String :=
  if flag = Vic then "v"
  else if flag = SympU ∨ flag = SympL ∨ flag = SympR then "s"
  else if flag = PointL ∨ flag = PointR then "p"
  else if flag = FoundL ∨ flag = FoundR then "f"
  else "*"

/-- The `Set` column emitted by `events.Write` (lines 476-482), given
the IDs of the two effective children. -/
def writeEventSet (flag : Nat) (lid rid : String) : String :=
  if flag = SympL ∨ flag = PointR ∨ flag = FoundR then lid
  else if flag = SympR ∨ flag = PointL ∨ flag = FoundL then rid
  else "*"

/-- The event loop at one node of `flipRecons` (`events.go` main,
lines 304-313): try each event in order, breaking as soon as the root
cost drops below `best`. -/
def tryEvents (n prev : Nat) (best : ℚ) : List Nat → Recons → Recons
  | [], r => r
  | e :: rest, r =>
    if e = prev then tryEvents n prev best rest r
    else
      let r1 := DownPass (setFlag r n e) n
      if Cost r1 < best then r1 else tryEvents n prev best rest r1

/-- The node loop of `flipRecons`: either accept the first improving
flip (returning the new best cost) or restore each node and move on.
`τ j` is the shuffled event order used at the `j`-th node. -/
def flipPass (τ : Nat → List Nat) :
    List Nat → Recons → ℚ → Recons × Option ℚ
  | [], r, _ => (r, none)
  | n :: rest, r, best =>
    let prev := (r.Rec n).flag
    let r1 := tryEvents n prev best (τ 0) r
    if Cost r1 < best then (r1, some (Cost r1))
    else flipPass (fun j => τ (j + 1)) rest (DownPass (setFlag r1 n prev) n) best

/-- The `doAgain` loop of `flipRecons` with explicit fuel; `σ k` is the
shuffled node order and `τ k` the family of shuffled event orders of the
`k`-th outer iteration. -/
def flipLoop (σ : Nat → List Nat) (τ : Nat → Nat → List Nat) :
    Nat → Recons → ℚ → Recons
  | 0, r, _ => r
  | fuel + 1, r, best =>
    match flipPass (τ 0) (σ 0) r best with
    | (r1, none) => r1
    | (r1, some b) => flipLoop (fun k => σ (k + 1)) (fun k => τ (k + 1)) fuel r1 b

/-- `flipRecons` (main package): the greedy first-improvement flip
search, its two `shuffle` calls modelled by the oracles `σ` and `τ`. -/
def flipRecons (σ : Nat → List Nat) (τ : Nat → Nat → List Nat)
    (fuel : Nat) (r : Recons) : Recons :=
  flipLoop σ τ fuel r (Cost r)

/-- Tree well-formedness: child indices are in range and above their
parent, and the `anc`/`children` links are converse to each other. -/
def wfTree (t : PTree) : Prop :=
  (∀ i < t.nodes.length, ∀ c ∈ (nodeOf t i).children,
      c < t.nodes.length ∧ i < c ∧ (nodeOf t c).anc = some i) ∧
  (∀ i < t.nodes.length, ∀ a ∈ (nodeOf t i).anc,
      a < i ∧ i ∈ (nodeOf t a).children)

instance (t : PTree) : Decidable (wfTree t) := by
  unfold wfTree; infer_instance

/-- The `SetL`/`SetR` fields of every optimizable node address two of
its children (established by `OR`, preserved by every mutator). -/
def GoodSets (r : Recons) : Prop :=
  ∀ m < r.tree.nodes.length, (r.Rec m).setL ≠ -1 →
    (r.Rec m).setL.toNat ∈ (nodeOf r.tree m).children ∧
    (r.Rec m).setR.toNat ∈ (nodeOf r.tree m).children

instance (r : Recons) : Decidable (GoodSets r) := by
  unfold GoodSets; infer_instance

/-- A reconstruction is stable when re-optimizing any node rewrites the
record it already has (every state produced by `OR` followed by flag
flips and `DownPass` calls is stable). -/
def Stable (r : Recons) : Prop :=
  ∀ m < r.tree.nodes.length, optimizeRec r m = r.Rec m

instance (r : Recons) : Decidable (Stable r) := by
  unfold Stable; infer_instance

/-- Weighting of a per-side cost by a branch length under `UseLen`
(the `cost / r.Rec[x].Node.Len` pattern of the cost functions). -/
def lenWeight (r : Recons) (x : Nat) (v : ℚ) : ℚ :=
  if r.UseLen then v / nodeLen r.tree x else v

/-! Concrete fixtures used by the witness theorems: a three-node tree
(root 0 with leaves 1, 2), a one-word raster with two taxa, and its OR
reconstruction. -/

/-- A rooted three-node tree: root `r` with terminal children `A`, `B`. -/
def t0 : PTree :=
  { id := "t1",
    nodes := [⟨"r", none, [1, 2], "", 1⟩,
              ⟨"a", some 0, [], "A", 1⟩,
              ⟨"b", some 0, [], "B", 1⟩] }

/-- The same tree under a different identifier (a distinct tree value). -/
def t0b : PTree := { t0 with id := "t2" }

/-- A tree whose second leaf names a taxon absent from the raster. -/
def t1 : PTree :=
  { id := "t3",
    nodes := [⟨"r", none, [1, 2], "", 1⟩,
              ⟨"a", some 0, [], "A", 1⟩,
              ⟨"c", some 0, [], "C", 1⟩] }

/-- A one-word raster with taxa `A` (bit 0) and `B` (bit 1). -/
def ras0 : Raster :=
  { fields := 1, taxa := [("a", ⟨"A", [1], [1]⟩), ("b", ⟨"B", [2], [2]⟩)] }

/-- The OR reconstruction of `ras0` on `t0` (no size penalties, no
branch-length weighting). -/
def or0 : Recons := OR ras0 t0 0 0 false

/-- The OR reconstruction of `ras0` on the relabelled tree `t0b`. -/
def or0b : Recons := OR ras0 t0b 0 0 false

/-- The OR reconstruction on `t1`, whose leaf `C` has no raster taxon. -/
def or1 : Recons := OR ras0 t1 0 0 false

/-- `or0` with the root flag flipped to full sympatry (still sharing
`t0` and `ras0`), used by the `Copy` witness. -/
def or0symp : Recons := DownPass (setFlag or0 0 SympU) 0

/-! Basic lemmas. -/

/-- Equality of the metadata fields of two records (the fields that
`optimize` never writes). -/
def metaEq (a b : NodeRec) : Prop :=
  a.flag = b.flag ∧ a.setL = b.setL ∧ a.setR = b.setR

lemma metaEq.refl (a : NodeRec) : metaEq a a := ⟨rfl, rfl, rfl⟩

lemma metaEq.trans {a b c : NodeRec} (h1 : metaEq a b) (h2 : metaEq b c) :
    metaEq a c :=
  ⟨h1.1.trans h2.1, h1.2.1.trans h2.2.1, h1.2.2.trans h2.2.2⟩

lemma optimizeRec_meta (r : Recons) (n : Nat) :
    metaEq (optimizeRec r n) (r.Rec n) := by
  unfold optimizeRec
  split
  · exact metaEq.refl _
  · exact ⟨rfl, rfl, rfl⟩

lemma optimize_Rec_self (r : Recons) (n : Nat) :
    (optimize r n).Rec n = optimizeRec r n := by
  simp [optimize]

lemma optimize_Rec_ne (r : Recons) {m n : Nat} (h : m ≠ n) :
    (optimize r n).Rec m = r.Rec m := by
  simp [optimize, Function.update_noteq h]

lemma optimize_meta (r : Recons) (n m : Nat) :
    metaEq ((optimize r n).Rec m) (r.Rec m) := by
  by_cases h : m = n
  · subst h; rw [optimize_Rec_self]; exact optimizeRec_meta r m
  · rw [optimize_Rec_ne r h]; exact metaEq.refl _

lemma downPassAux_shape (fuel : Nat) (r : Recons) (n : Nat) :
    downPassAux fuel r n = { r with Rec := (downPassAux fuel r n).Rec } := by
  induction fuel generalizing r n with
  | zero => rfl
  | succ fuel ih =>
    unfold downPassAux
    cases h : (nodeOf r.tree n).anc with
    | none => rfl
    | some a => exact ih (optimize r n) a

lemma downPassAux_tree (fuel : Nat) (r : Recons) (n : Nat) :
    (downPassAux fuel r n).tree = r.tree := by
  rw [downPassAux_shape]

lemma downPassAux_meta (fuel : Nat) (r : Recons) (n m : Nat) :
    metaEq ((downPassAux fuel r n).Rec m) (r.Rec m) := by
  induction fuel generalizing r n with
  | zero => exact metaEq.refl _
  | succ fuel ih =>
    unfold downPassAux
    cases h : (nodeOf r.tree n).anc with
    | none => exact optimize_meta r n m
    | some a => exact (ih (optimize r n) a).trans (optimize_meta r n m)

lemma downPassAux_Rec_off (t : PTree) (fuel : Nat) (r : Recons) (n m : Nat)
    (ht : r.tree = t) (hm : m ∉ ancChainAux t fuel n) :
    (downPassAux fuel r n).Rec m = r.Rec m := by
  induction fuel generalizing r n with
  | zero => rfl
  | succ fuel ih =>
    unfold downPassAux
    unfold ancChainAux at hm
    rw [ht]
    cases hanc : (nodeOf t n).anc with
    | none =>
      rw [hanc] at hm
      simp only [List.mem_cons, List.not_mem_nil, or_false] at hm
      exact optimize_Rec_ne r hm
    | some a =>
      rw [hanc] at hm
      simp only [List.mem_cons] at hm
      push_neg at hm
      rw [ih (optimize r n) a ht hm.2]
      exact optimize_Rec_ne r hm.1

lemma optimizeRec_of_leaf (r : Recons) (n : Nat)
    (h : (nodeOf r.tree n).children = []) : optimizeRec r n = r.Rec n := by
  unfold optimizeRec
  rw [if_pos h]

lemma optimize_of_leaf (r : Recons) (n : Nat)
    (h : (nodeOf r.tree n).children = []) : optimize r n = r := by
  unfold optimize
  rw [optimizeRec_of_leaf r n h, Function.update_eq_self]

lemma downPassAux_Rec_leaf (t : PTree) (fuel : Nat) (r : Recons) (n m : Nat)
    (ht : r.tree = t) (hm : (nodeOf t m).children = []) :
    (downPassAux fuel r n).Rec m = r.Rec m := by
  induction fuel generalizing r n with
  | zero => rfl
  | succ fuel ih =>
    unfold downPassAux
    have hopt : (optimize r n).Rec m = r.Rec m := by
      by_cases h : m = n
      · subst h
        rw [optimize_Rec_self, optimizeRec_of_leaf r m (ht ▸ hm)]
      · exact optimize_Rec_ne r h
    cases h : (nodeOf r.tree n).anc with
    | none => exact hopt
    | some a => rw [ih (optimize r n) a ht, hopt]

/-- C8: `DownPass(n)` mutates only the records of `n` and of its
ancestors: every record outside the ancestor chain of `n` is unchanged,
and the record of a terminal (childless) node is never mutated even when
the pass starts at it. -/
theorem DownPass_frame (r : Recons) (n m : Nat) :
    (m ∉ ancChain r.tree n → (DownPass r n).Rec m = r.Rec m) ∧
    ((nodeOf r.tree m).children = [] → (DownPass r n).Rec m = r.Rec m) :=
  ⟨fun hm => downPassAux_Rec_off r.tree (n + 1) r n m rfl hm,
   fun hm => downPassAux_Rec_leaf r.tree (n + 1) r n m rfl hm⟩

/-- Witness for `DownPass_frame`: in the concrete reconstruction `or0`,
running `DownPass` from the root leaves the record of leaf 1 unchanged
(by both parts: leaf 1 is off the root's chain and is terminal). -/
theorem DownPass_frame_witness :
    ((1 ∉ ancChain or0.tree 0 → (DownPass or0 0).Rec 1 = or0.Rec 1) ∧
     ((nodeOf or0.tree 1).children = [] → (DownPass or0 0).Rec 1 = or0.Rec 1)) ∧
    (DownPass or0 0).Rec 1 = or0.Rec 1 := by
  refine ⟨DownPass_frame or0 0 1, ?_⟩
  exact (DownPass_frame or0 0 1).1 (by with_unfolding_all decide)

/-- C1: the vicariance cost at a node with effective children `L`, `R`
is `comL + comR + VicC` where `comL` counts the bits common to `L.Obs`
and `R.Fill` and `comR` those common to `R.Obs` and `L.Fill`, after the
adjustment: when exactly one of `onlyL`, `onlyR` is zero, 1 is added to
the `com` on the side of the zero (the side opposite the nonzero side);
when both are zero, 1 is added to each; under `UseLen` each side is
divided by its own branch length before summing. -/
theorem vicariance_spec (r : Recons) (n L R : Nat)
    (hL : (r.Rec n).setL = Int.ofNat L) (hR : (r.Rec n).setR = Int.ofNat R)
    (comL comR onlyL onlyR : ℤ)
    (hcL : comL = bfCommon (r.Rec L).obs (r.Rec R).fill)
    (hcR : comR = bfCommon (r.Rec R).obs (r.Rec L).fill)
    (hoL : onlyL = (bfCount (r.Rec L).obs : ℤ) - comL)
    (hoR : onlyR = (bfCount (r.Rec R).obs : ℤ) - comR) :
    (onlyL ≠ 0 → onlyR ≠ 0 → vicariance r n =
      lenWeight r L (comL : ℚ) + lenWeight r R (comR : ℚ) + r.VicC) ∧
    (onlyL ≠ 0 → onlyR = 0 → vicariance r n =
      lenWeight r L (comL : ℚ) + lenWeight r R ((comR + 1 : ℤ) : ℚ) + r.VicC) ∧
    (onlyL = 0 → onlyR ≠ 0 → vicariance r n =
      lenWeight r L ((comL + 1 : ℤ) : ℚ) + lenWeight r R (comR : ℚ) + r.VicC) ∧
    (onlyL = 0 → onlyR = 0 → vicariance r n =
      lenWeight r L ((comL + 1 : ℤ) : ℚ) + lenWeight r R ((comR + 1 : ℤ) : ℚ) + r.VicC) := by
  have hL' : (r.Rec n).setL.toNat = L := by rw [hL]; rfl
  have hR' : (r.Rec n).setR.toNat = R := by rw [hR]; rfl
  unfold vicariance lenWeight
  simp only [hL', hR', ← hcL, ← hcR, ← hoL, ← hoR]
  refine ⟨fun h1 h2 => ?_, fun h1 h2 => ?_, fun h1 h2 => ?_, fun h1 h2 => ?_⟩
  · have hno : ¬(onlyL = 0 ∨ onlyR = 0) := by
      push_neg
      exact ⟨h1, h2⟩
    simp only [if_neg hno]
  · simp only [if_pos (Or.inr h2 : onlyL = 0 ∨ onlyR = 0), if_pos h1]
  · simp only [if_pos (Or.inl h1 : onlyL = 0 ∨ onlyR = 0),
      if_neg (not_not_intro h1), if_pos h2]
  · simp only [if_pos (Or.inl h1 : onlyL = 0 ∨ onlyR = 0),
      if_neg (not_not_intro h1), if_neg (not_not_intro h2)]

/-- Witness for `vicariance_spec` at the root of `or0` (properly
disjoint daughters: both `only` values nonzero, no adjustment). -/
theorem vicariance_spec_witness :
    vicariance or0 0 =
      lenWeight or0 1 ((0 : ℤ) : ℚ) + lenWeight or0 2 ((0 : ℤ) : ℚ) + or0.VicC :=
  (vicariance_spec or0 0 1 2
    (by with_unfolding_all decide) (by with_unfolding_all decide)
    0 0 1 1
    (by with_unfolding_all decide) (by with_unfolding_all decide)
    (by with_unfolding_all decide) (by with_unfolding_all decide)).1
    (by decide) (by decide)

/-- C5: the founder cost with founder daughter `f` is
`cellF + comF − 1` (with `cellF` inflated by 2 when `onlyF = 0`),
divided by `f`'s branch length under `UseLen`, plus `FoundC`. -/
theorem founder_spec (r : Recons) (n f : Nat)
    (comF cellF onlyF : ℤ)
    (hc : comF = bfCommon (r.Rec f).obs (r.Rec n).fill)
    (he : cellF = (bfCount (r.Rec f).obs : ℤ))
    (ho : onlyF = cellF - comF) :
    (onlyF = 0 → founder r n f =
      lenWeight r f ((cellF + 2 + comF - 1 : ℤ) : ℚ) + r.FoundC) ∧
    (onlyF ≠ 0 → founder r n f =
      lenWeight r f ((cellF + comF - 1 : ℤ) : ℚ) + r.FoundC) := by
  unfold founder lenWeight
  simp only [← hc, ← he, ← ho]
  constructor
  · intro h0
    rw [if_pos h0]
  · intro h0
    rw [if_neg h0]

/-- Witness for `founder_spec`: founder daughter 1 at the root of `or0`
(the founder is inside the ancestral fill, `onlyF = 0`, so `cellF` is
inflated by 2). -/
theorem founder_spec_witness :
    founder or0 0 1 =
      lenWeight or0 1 (((1 : ℤ) + 2 + 1 - 1 : ℤ) : ℚ) + or0.FoundC :=
  (founder_spec or0 0 1 1 1 0
    (by with_unfolding_all decide) (by with_unfolding_all decide)
    (by with_unfolding_all decide)).1 (by decide)

/-- C7 counterexample: reading a `p` row whose `Set` column names the
left effective child (ID `x`) yields `PointR` — the event in which the
*right* child is the point (`optimize` treats `PointR` as "setR is a
point inside a setL-exact ancestor") — not `PointL` as the claim's
rule "the named child is the point" predicts; symmetrically, writing
`PointL` (point = left child) emits the *right* child's ID. -/
theorem readEvent_point_named_counterexample :
    readEvent "x" "y" "p" "x" = RowResult.ok PointR ∧
    readEvent "x" "y" "p" "x" ≠ RowResult.ok PointL ∧
    writeEventSet PointL "x" "y" = "y" := by
  with_unfolding_all decide

/-- C7 (amended): in `p` and `f` rows the child named by the `Set`
column is the *exact ancestor*; the other effective child is the
point/founder.  `Read` and `Write` agree on this rule: `Write` emits
the exact-ancestor child's ID, and reading back a written `p`/`f` row
restores the same event. -/
theorem readEvent_writeEvent_ancestor (lid rid : String) (h : lid ≠ rid) :
    (readEvent lid rid "p" lid = RowResult.ok PointR ∧
     readEvent lid rid "p" rid = RowResult.ok PointL ∧
     readEvent lid rid "f" lid = RowResult.ok FoundR ∧
     readEvent lid rid "f" rid = RowResult.ok FoundL) ∧
    (writeEventSet PointL lid rid = rid ∧
     writeEventSet PointR lid rid = lid ∧
     writeEventSet FoundL lid rid = rid ∧
     writeEventSet FoundR lid rid = lid) ∧
    (∀ e, e = PointL ∨ e = PointR ∨ e = FoundL ∨ e = FoundR →
      readEvent lid rid (writeEventLetter e) (writeEventSet e lid rid) =
        RowResult.ok e) := by
  have hp : ("p" : String).toLower = "p" := by with_unfolding_all rfl
  have hf : ("f" : String).toLower = "f" := by with_unfolding_all rfl
  have hpv : ("p" : String) ≠ "v" := by decide
  have hps : ("p" : String) ≠ "s" := by decide
  have hfv : ("f" : String) ≠ "v" := by decide
  have hfs : ("f" : String) ≠ "s" := by decide
  have hfp : ("f" : String) ≠ "p" := by decide
  refine ⟨⟨?_, ?_, ?_, ?_⟩, ⟨?_, ?_, ?_, ?_⟩, ?_⟩
  · simp [readEvent, hp, hpv, hps]
  · simp [readEvent, hp, hpv, hps, h]
  · simp [readEvent, hf, hfv, hfs, hfp]
  · simp [readEvent, hf, hfv, hfs, hfp, h]
  · simp [writeEventSet, PointL, SympL, PointR, FoundR, SympR, FoundL]
  · simp [writeEventSet, PointR, SympL, FoundR]
  · simp [writeEventSet, FoundL, SympL, PointR, FoundR, SympR, PointL]
  · simp [writeEventSet, FoundR, SympL, PointR]
  · rintro e (rfl | rfl | rfl | rfl)
    · have h1 : writeEventLetter PointL = "p" := by
        simp [writeEventLetter, PointL, Vic, SympU, SympL, SympR, PointR]
      have h2 : writeEventSet PointL lid rid = rid := by
        simp [writeEventSet, PointL, SympL, PointR, FoundR, SympR, FoundL]
      rw [h1, h2]
      simp [readEvent, hp, hpv, hps, h]
    · have h1 : writeEventLetter PointR = "p" := by
        simp [writeEventLetter, PointR, Vic, SympU, SympL, SympR, PointL]
      have h2 : writeEventSet PointR lid rid = lid := by
        simp [writeEventSet, PointR, SympL, FoundR]
      rw [h1, h2]
      simp [readEvent, hp, hpv, hps]
    · have h1 : writeEventLetter FoundL = "f" := by
        simp [writeEventLetter, FoundL, Vic, SympU, SympL, SympR, PointL, PointR, FoundR]
      have h2 : writeEventSet FoundL lid rid = rid := by
        simp [writeEventSet, FoundL, SympL, PointR, FoundR, SympR, PointL]
      rw [h1, h2]
      simp [readEvent, hf, hfv, hfs, hfp, h]
    · have h1 : writeEventLetter FoundR = "f" := by
        simp [writeEventLetter, FoundR, Vic, SympU, SympL, SympR, PointL, PointR, FoundL]
      have h2 : writeEventSet FoundR lid rid = lid := by
        simp [writeEventSet, FoundR, SympL, PointR]
      rw [h1, h2]
      simp [readEvent, hf, hfv, hfs, hfp]

/-- Witness for `readEvent_writeEvent_ancestor` at the concrete child
IDs `x`, `y`. -/
theorem readEvent_writeEvent_ancestor_witness :
    readEvent "x" "y" "p" "x" = RowResult.ok PointR ∧
    readEvent "x" "y" (writeEventLetter PointL) (writeEventSet PointL "x" "y") =
      RowResult.ok PointL := by
  have h := readEvent_writeEvent_ancestor "x" "y" (by decide)
  exact ⟨h.1.1, h.2.2 PointL (Or.inl rfl)⟩

lemma bfCopy_of_length_eq {dst src : BField} (h : dst.length = src.length) :
    bfCopy dst src = src := by
  unfold bfCopy
  rw [h, List.take_length, ← h, List.drop_length, List.append_nil]

/-- C9: `Copy` fails (Go: panics) whenever the receiver and source do
not share their tree or their raster; when they share both, it
overwrites the receiver's ID, cost scalars and every per-node record
with the source's contents, leaving the receiver equal to the source
(record for record; the word-width agreement that holds for any two
reconstructions built over the same raster is an explicit premise). -/
theorem Copy_spec (r cp : Recons) :
    (r.tree ≠ cp.tree ∨ r.raster ≠ cp.raster → Copy r cp = none) ∧
    (r.tree = cp.tree → r.raster = cp.raster →
     (∀ i, i < cp.tree.nodes.length →
        (r.Rec i).obs.length = (cp.Rec i).obs.length ∧
        (r.Rec i).fill.length = (cp.Rec i).fill.length) →
     ∃ r2, Copy r cp = some r2 ∧ r2.ID = cp.ID ∧ r2.tree = cp.tree ∧
       r2.raster = cp.raster ∧ r2.UseLen = cp.UseLen ∧ r2.Size = cp.Size ∧
       r2.SympSize = cp.SympSize ∧ r2.VicC = cp.VicC ∧ r2.SympC = cp.SympC ∧
       r2.PointC = cp.PointC ∧ r2.FoundC = cp.FoundC ∧
       ∀ i, i < cp.tree.nodes.length → r2.Rec i = cp.Rec i) := by
  constructor
  · intro h
    unfold Copy
    by_cases ht : r.tree = cp.tree
    · have hra : r.raster ≠ cp.raster := by tauto
      rw [if_neg (not_not_intro ht), if_pos hra]
    · rw [if_pos ht]
  · intro ht hra hw
    unfold Copy
    rw [if_neg (not_not_intro ht), if_neg (not_not_intro hra)]
    refine ⟨_, rfl, rfl, ht, hra, rfl, rfl, rfl, rfl, rfl, rfl, rfl, ?_⟩
    intro i hi
    show (if i < cp.tree.nodes.length then _ else r.Rec i) = cp.Rec i
    rw [if_pos hi]
    rw [bfCopy_of_length_eq (hw i hi).1, bfCopy_of_length_eq (hw i hi).2]

/-- Witness for `Copy_spec`: copying between the OR reconstructions of
the distinct trees `t0` and `t0b` fails; copying the sympatry variant
`or0symp` into `or0` (same tree and raster) succeeds and reproduces its
records. -/
theorem Copy_spec_witness :
    Copy or0 or0b = none ∧
    ∃ r2, Copy or0 or0symp = some r2 ∧
      ∀ i, i < or0symp.tree.nodes.length → r2.Rec i = or0symp.Rec i := by
  constructor
  · exact (Copy_spec or0 or0b).1 (Or.inl (by with_unfolding_all decide))
  · obtain ⟨r2, hsome, -, -, -, -, -, -, -, -, -, -, hrec⟩ :=
      (Copy_spec or0 or0symp).2 (by with_unfolding_all decide)
        (by with_unfolding_all decide) (by with_unfolding_all decide)
    exact ⟨r2, hsome, hrec⟩

lemma setFlag_Rec_ne (r : Recons) {m n : Nat} (e : Nat) (h : m ≠ n) :
    (setFlag r n e).Rec m = r.Rec m := by
  simp [setFlag, Function.update_noteq h]

lemma setFlag_Rec_self (r : Recons) (n e : Nat) :
    (setFlag r n e).Rec n = { r.Rec n with flag := e } := by
  simp [setFlag]

lemma setFlag_setL (r : Recons) (n e m : Nat) :
    ((setFlag r n e).Rec m).setL = (r.Rec m).setL := by
  by_cases h : m = n
  · subst h; rw [setFlag_Rec_self]
  · rw [setFlag_Rec_ne r e h]

lemma DownPass_meta (r : Recons) (n m : Nat) :
    metaEq ((DownPass r n).Rec m) (r.Rec m) :=
  downPassAux_meta (n + 1) r n m

/-- The flag field after the node loop of `Randomize`: node `i`'s flag
becomes `evs[pick i]` exactly when `i` is visited, optimizable, and its
draw is not above `prob`. -/
lemma randomizeFold_flag (prob : Int) (evs : List Nat) (draw pick : Nat → Nat)
    (l : List Nat) (r : Recons) (i : Nat) :
    ((l.foldl (fun r j =>
        if (r.Rec j).setL = -1 then r
        else if prob < (draw j : Int) then r
        else DownPass (setFlag r j (evs.getD (pick j) Undef)) j) r).Rec i).flag =
      if i ∈ l ∧ (r.Rec i).setL ≠ -1 ∧ ¬(prob < (draw i : Int))
      then evs.getD (pick i) Undef else (r.Rec i).flag := by
  induction l generalizing r with
  | nil => simp
  | cons j rest ih =>
    simp only [List.foldl_cons]
    rw [ih]
    by_cases hj1 : (r.Rec j).setL = -1
    · rw [if_pos hj1]
      by_cases hij : i = j
      · subst hij
        simp [List.mem_cons, hj1]
      · simp only [List.mem_cons]
        exact if_congr (by tauto) rfl rfl
    · rw [if_neg hj1]
      by_cases hj2 : prob < (draw j : Int)
      · rw [if_pos hj2]
        by_cases hij : i = j
        · subst hij
          simp [List.mem_cons, hj2]
        · simp only [List.mem_cons]
          exact if_congr (by tauto) rfl rfl
      · rw [if_neg hj2]
        set r1 := DownPass (setFlag r j (evs.getD (pick j) Undef)) j with hr1
        by_cases hij : i = j
        · subst hij
          have hfl : (r1.Rec i).flag = evs.getD (pick i) Undef := by
            rw [(DownPass_meta _ i i).1, setFlag_Rec_self]
          have hsl : (r1.Rec i).setL = (r.Rec i).setL := by
            rw [(DownPass_meta _ i i).2.1, setFlag_setL]
          rw [hfl, hsl]
          simp [List.mem_cons, hj1, hj2]
        · have hfl : (r1.Rec i).flag = (r.Rec i).flag := by
            rw [(DownPass_meta _ j i).1, setFlag_Rec_ne r _ hij]
          have hsl : (r1.Rec i).setL = (r.Rec i).setL := by
            rw [(DownPass_meta _ j i).2.1, setFlag_setL]
          rw [hfl, hsl]
          simp only [List.mem_cons]
          exact if_congr (by tauto) rfl rfl

/-- C6 counterexample: with `prob = 10` and a draw of exactly 10 at the
root (a draw that is *not* strictly below `prob`), `Randomize` still
replaces the root's flag — the modification condition of the code is
`draw ≤ prob` (`rand.Intn(100) > prob` skips), not `draw < prob`. -/
theorem Randomize_draw_eq_counterexample :
    ((Randomize or0 10 [PointL] (fun _ => 10) (fun _ => 0)).Rec 0).flag = PointL ∧
    (or0.Rec 0).flag = Vic ∧ ¬((10 : Nat) < 10) := by
  with_unfolding_all decide

/-- C6 (amended): `Randomize(prob, evs)` is a no-op when `prob = 0`,
behaves as `prob = 10` when `prob` is negative or above 100, and
replaces the flag of node `i` with `evs[pick i]` (running `DownPass`
there) exactly when `i` is an optimizable node and its draw from
`{0,...,99}` is *less than or equal to* the (clamped) `prob` — i.e.
with probability `(prob+1)/100`, not `prob/100`. -/
theorem Randomize_spec (r : Recons) (prob : Int) (evs : List Nat)
    (draw pick : Nat → Nat) :
    (prob = 0 → Randomize r prob evs draw pick = r) ∧
    (prob < 0 ∨ 100 < prob →
      Randomize r prob evs draw pick = Randomize r 10 evs draw pick) ∧
    (∀ i, ((Randomize r prob evs draw pick).Rec i).flag =
      if prob ≠ 0 ∧ i < r.tree.nodes.length ∧ (r.Rec i).setL ≠ -1 ∧
         (draw i : Int) ≤ (if prob < 0 ∨ 100 < prob then 10 else prob)
      then evs.getD (pick i) Undef else (r.Rec i).flag) := by
  refine ⟨fun h0 => ?_, fun hcl => ?_, fun i => ?_⟩
  · unfold Randomize
    rw [if_pos h0]
  · have h0 : prob ≠ 0 := by
      rcases hcl with h | h <;> omega
    unfold Randomize
    rw [if_neg h0, if_neg (by norm_num : ¬(10 : Int) = 0), if_pos hcl,
      if_neg (by norm_num : ¬((10 : Int) < 0 ∨ (100 : Int) < 10))]
  · by_cases h0 : prob = 0
    · subst h0
      unfold Randomize
      rw [if_pos rfl]
      simp
    · unfold Randomize
      rw [if_neg h0]
      rw [randomizeFold_flag]
      simp only [List.mem_range, not_lt]
      by_cases hi : i < r.tree.nodes.length <;>
        by_cases hs : (r.Rec i).setL = -1 <;>
          simp [hi, hs, h0]

/-- Witness for `Randomize_spec`: zero probability is a no-op on `or0`,
and with `prob = 10`, draw 3 the root flag becomes the picked event. -/
theorem Randomize_spec_witness :
    Randomize or0 0 [PointL] (fun _ => 0) (fun _ => 0) = or0 ∧
    ((Randomize or0 10 [SympU] (fun _ => 3) (fun _ => 0)).Rec 0).flag = SympU := by
  constructor
  · exact (Randomize_spec or0 0 [PointL] (fun _ => 0) (fun _ => 0)).1 rfl
  · rw [(Randomize_spec or0 10 [SympU] (fun _ => 3) (fun _ => 0)).2.2 0]
    with_unfolding_all decide

attribute [ext] NodeRec
attribute [ext] Recons

lemma foldl_congr_of_mem {α β : Type _} {l : List α} {h1 h2 : β → α → β} (b : β)
    (h : ∀ c ∈ l, ∀ acc, h1 acc c = h2 acc c) : l.foldl h1 b = l.foldl h2 b := by
  induction l generalizing b with
  | nil => rfl
  | cons x xs ih =>
    simp only [List.foldl_cons]
    rw [h x (by simp)]
    exact ih _ (fun c hc acc => h c (by simp [hc]) acc)

lemma vicariance_congr (r : Recons) (f g : Nat → NodeRec) (n sL sR : Nat)
    (hsL : (f n).setL.toNat = sL) (hsR : (f n).setR.toNat = sR)
    (hsLg : (g n).setL.toNat = sL) (hsRg : (g n).setR.toNat = sR)
    (hL : f sL = g sL) (hR : f sR = g sR) :
    vicariance { r with Rec := f } n = vicariance { r with Rec := g } n := by
  unfold vicariance
  dsimp only
  rw [hsL, hsR, hsLg, hsRg, hL, hR]

lemma sympatry_congr (r : Recons) (f g : Nat → NodeRec) (n sL sR : Nat)
    (hsL : (f n).setL.toNat = sL) (hsR : (f n).setR.toNat = sR)
    (hsLg : (g n).setL.toNat = sL) (hsRg : (g n).setR.toNat = sR)
    (hobs : (f n).obs = (g n).obs) (hfill : (f n).fill = (g n).fill)
    (hL : f sL = g sL) (hR : f sR = g sR) :
    sympatry { r with Rec := f } n = sympatry { r with Rec := g } n := by
  unfold sympatry
  dsimp only
  rw [hsL, hsR, hsLg, hsRg, hobs, hfill, hL, hR]

lemma point_congr (r : Recons) (f g : Nat → NodeRec) (n p : Nat)
    (hfill : (f n).fill = (g n).fill) (hp : f p = g p) :
    point { r with Rec := f } n p = point { r with Rec := g } n p := by
  unfold point
  dsimp only
  rw [hfill, hp]

lemma founder_congr (r : Recons) (f g : Nat → NodeRec) (n p : Nat)
    (hfill : (f n).fill = (g n).fill) (hp : f p = g p) :
    founder { r with Rec := f } n p = founder { r with Rec := g } n p := by
  unfold founder
  dsimp only
  rw [hfill, hp]

/-- `optimizeVals` at `n` reads only the metadata of record `n`, the
records of `n`'s children, and (through `SetL`/`SetR`, which address
children) the records of the two effective daughters. -/
lemma optimizeVals_congr (r : Recons) (f g : Nat → NodeRec) (n : Nat)
    (hfl : (f n).flag = (g n).flag)
    (hsl : (f n).setL = (g n).setL)
    (hsr : (f n).setR = (g n).setR)
    (hgs : (f n).setL ≠ -1 →
      (f n).setL.toNat ∈ (nodeOf r.tree n).children ∧
      (f n).setR.toNat ∈ (nodeOf r.tree n).children)
    (hc : ∀ c ∈ (nodeOf r.tree n).children, f c = g c) :
    optimizeVals { r with Rec := f } n = optimizeVals { r with Rec := g } n := by
  unfold optimizeVals
  dsimp only
  by_cases h1 : (f n).setL = -1 ∨ (f n).flag = Undef
  · have h1g : (g n).setL = -1 ∨ (g n).flag = Undef := by
      rw [← hsl, ← hfl]; exact h1
    rw [if_pos h1, if_pos h1g]
    have e1 : (nodeOf r.tree n).children.foldl (fun b c => bfUnion b (f c).obs)
        (bfZero r.raster.fields) =
        (nodeOf r.tree n).children.foldl (fun b c => bfUnion b (g c).obs)
        (bfZero r.raster.fields) :=
      foldl_congr_of_mem _ (fun c hcm acc => by rw [hc c hcm])
    have e2 : (nodeOf r.tree n).children.foldl (fun b c => bfUnion b (f c).fill)
        (bfZero r.raster.fields) =
        (nodeOf r.tree n).children.foldl (fun b c => bfUnion b (g c).fill)
        (bfZero r.raster.fields) :=
      foldl_congr_of_mem _ (fun c hcm acc => by rw [hc c hcm])
    have e3 : (nodeOf r.tree n).children.foldl (fun q c => q + (f c).cost) 0 =
        (nodeOf r.tree n).children.foldl (fun q c => q + (g c).cost) 0 :=
      foldl_congr_of_mem _ (fun c hcm acc => by rw [hc c hcm])
    rw [e1, e2, e3]
  · have h1g : ¬((g n).setL = -1 ∨ (g n).flag = Undef) := by
      rw [← hsl, ← hfl]; exact h1
    rw [if_neg h1, if_neg h1g]
    rw [← hfl, ← hsl, ← hsr]
    have hset : (f n).setL ≠ -1 := fun h => h1 (Or.inl h)
    obtain ⟨hmemL, hmemR⟩ := hgs hset
    have hLrec : f ((f n).setL.toNat) = g ((f n).setL.toNat) := hc _ hmemL
    have hRrec : f ((f n).setR.toNat) = g ((f n).setR.toNat) := hc _ hmemR
    have hupd : ∀ v : NodeRec, ∀ x, x = (f n).setL.toNat ∨ x = (f n).setR.toNat →
        Function.update f n v x = Function.update g n v x := by
      intro v x hx
      by_cases hxn : x = n
      · subst hxn
        rw [Function.update_same, Function.update_same]
      · rw [Function.update_noteq hxn, Function.update_noteq hxn]
        rcases hx with rfl | rfl
        · exact hLrec
        · exact hRrec
    have hupdL := fun v => hupd v _ (Or.inl rfl)
    have hupdR := fun v => hupd v _ (Or.inr rfl)
    rw [hupdL, hupdR]
    have hevc : ∀ v : NodeRec, v.setL = (f n).setL → v.setR = (f n).setR →
        (if (f n).flag = Vic then
          vicariance { r with Rec := Function.update f n v } n
        else if (f n).flag = SympU ∨ (f n).flag = SympL ∨ (f n).flag = SympR then
          sympatry { r with Rec := Function.update f n v } n
        else if (f n).flag = PointL then
          point { r with Rec := Function.update f n v } n ((f n).setL.toNat)
        else if (f n).flag = PointR then
          point { r with Rec := Function.update f n v } n ((f n).setR.toNat)
        else if (f n).flag = FoundL then
          founder { r with Rec := Function.update f n v } n ((f n).setL.toNat)
        else if (f n).flag = FoundR then
          founder { r with Rec := Function.update f n v } n ((f n).setR.toNat)
        else 0) =
        (if (f n).flag = Vic then
          vicariance { r with Rec := Function.update g n v } n
        else if (f n).flag = SympU ∨ (f n).flag = SympL ∨ (f n).flag = SympR then
          sympatry { r with Rec := Function.update g n v } n
        else if (f n).flag = PointL then
          point { r with Rec := Function.update g n v } n ((f n).setL.toNat)
        else if (f n).flag = PointR then
          point { r with Rec := Function.update g n v } n ((f n).setR.toNat)
        else if (f n).flag = FoundL then
          founder { r with Rec := Function.update g n v } n ((f n).setL.toNat)
        else if (f n).flag = FoundR then
          founder { r with Rec := Function.update g n v } n ((f n).setR.toNat)
        else 0) := by
      intro v hvL hvR
      have hL2 : Function.update f n v ((f n).setL.toNat) =
          Function.update g n v ((f n).setL.toNat) := hupd v _ (Or.inl rfl)
      have hR2 : Function.update f n v ((f n).setR.toNat) =
          Function.update g n v ((f n).setR.toNat) := hupd v _ (Or.inr rfl)
      have hsLv : (Function.update f n v n).setL.toNat = (f n).setL.toNat := by
        rw [Function.update_same, hvL]
      have hsRv : (Function.update f n v n).setR.toNat = (f n).setR.toNat := by
        rw [Function.update_same, hvR]
      have hsLw : (Function.update g n v n).setL.toNat = (f n).setL.toNat := by
        rw [Function.update_same, hvL]
      have hsRw : (Function.update g n v n).setR.toNat = (f n).setR.toNat := by
        rw [Function.update_same, hvR]
      have hob : (Function.update f n v n).obs = (Function.update g n v n).obs := by
        rw [Function.update_same, Function.update_same]
      have hfi : (Function.update f n v n).fill = (Function.update g n v n).fill := by
        rw [Function.update_same, Function.update_same]
      split_ifs
      · exact vicariance_congr r _ _ n _ _ hsLv hsRv hsLw hsRw hL2 hR2
      · exact sympatry_congr r _ _ n _ _ hsLv hsRv hsLw hsRw hob hfi hL2 hR2
      · exact point_congr r _ _ n _ hfi hL2
      · exact point_congr r _ _ n _ hfi hR2
      · exact founder_congr r _ _ n _ hfi hL2
      · exact founder_congr r _ _ n _ hfi hR2
      · rfl
    congr 1
    congr 1
    congr 1
    congr 1
    exact hevc _ rfl rfl

/-- `optimizeRec` congruence: two record maps agreeing on the metadata
of `n`, on `n`'s children (hence on the effective daughters), and — when
`n` is terminal — on `n` itself, produce the same new record. -/
lemma optimizeRec_congr (r : Recons) (f g : Nat → NodeRec) (n : Nat)
    (hfl : (f n).flag = (g n).flag)
    (hsl : (f n).setL = (g n).setL)
    (hsr : (f n).setR = (g n).setR)
    (hgs : (f n).setL ≠ -1 →
      (f n).setL.toNat ∈ (nodeOf r.tree n).children ∧
      (f n).setR.toNat ∈ (nodeOf r.tree n).children)
    (hc : ∀ c ∈ (nodeOf r.tree n).children, f c = g c)
    (hleaf : (nodeOf r.tree n).children = [] → f n = g n) :
    optimizeRec { r with Rec := f } n = optimizeRec { r with Rec := g } n := by
  unfold optimizeRec
  dsimp only
  by_cases hch : (nodeOf r.tree n).children = []
  · rw [if_pos hch, if_pos hch]
    exact hleaf hch
  · rw [if_neg hch, if_neg hch]
    have hv := optimizeVals_congr r f g n hfl hsl hsr hgs hc
    rw [hv]
    apply NodeRec.ext <;> first
      | rfl
      | exact hsl
      | exact hsr
      | exact hfl

lemma wf_children {t : PTree} (hw : wfTree t) {i c : Nat}
    (hi : i < t.nodes.length) (hc : c ∈ (nodeOf t i).children) :
    c < t.nodes.length ∧ i < c ∧ (nodeOf t c).anc = some i :=
  hw.1 i hi c hc

lemma wf_anc {t : PTree} (hw : wfTree t) {i a : Nat}
    (hi : i < t.nodes.length) (ha : (nodeOf t i).anc = some a) :
    a < i ∧ i ∈ (nodeOf t a).children :=
  hw.2 i hi a (Option.mem_def.mpr ha)

lemma ancChainAux_le {t : PTree} (hw : wfTree t) (fuel : Nat) :
    ∀ n, n < t.nodes.length →
      ∀ m ∈ ancChainAux t fuel n, m ≤ n ∧ m < t.nodes.length := by
  induction fuel with
  | zero =>
    intro n hn m hm
    simp [ancChainAux] at hm
  | succ fuel ih =>
    intro n hn m hm
    unfold ancChainAux at hm
    rcases List.mem_cons.mp hm with rfl | hm2
    · exact ⟨le_refl _, hn⟩
    · cases hanc : (nodeOf t n).anc with
      | none =>
        rw [hanc] at hm2
        simp at hm2
      | some a =>
        rw [hanc] at hm2
        have ha1 := (wf_anc hw hn hanc).1
        have h2 := ih a (lt_trans ha1 hn) m hm2
        exact ⟨le_trans h2.1 (le_of_lt ha1), h2.2⟩

lemma not_mem_ancChainAux {t : PTree} (hw : wfTree t) {fuel a n : Nat}
    (ha : a < t.nodes.length) (h : a < n) : n ∉ ancChainAux t fuel a :=
  fun hm => absurd (ancChainAux_le hw fuel a ha n hm).1 (not_le.mpr h)

lemma GoodSets_congr {r r' : Recons} (ht : r'.tree = r.tree)
    (hm : ∀ m, metaEq (r'.Rec m) (r.Rec m)) (hg : GoodSets r) : GoodSets r' := by
  intro m hmlt hset
  rw [ht] at hmlt
  obtain ⟨h1, h2, h3⟩ := hm m
  rw [ht, h2, h3]
  exact hg m hmlt (by rw [← h2]; exact hset)

lemma GoodSets_optimize {r : Recons} (n : Nat) (hg : GoodSets r) :
    GoodSets (optimize r n) :=
  GoodSets_congr (show (optimize r n).tree = r.tree from rfl)
    (fun m => optimize_meta r n m) hg

lemma optimize_idem (t : PTree) (hw : wfTree t) (r : Recons) (n : Nat)
    (ht : r.tree = t) (hn : n < t.nodes.length) (hgs : GoodSets r) :
    optimize (optimize r n) n = optimize r n := by
  have hmeta := optimizeRec_meta r n
  have hrec : optimizeRec (optimize r n) n = optimizeRec r n := by
    show optimizeRec { r with Rec := Function.update r.Rec n (optimizeRec r n) } n =
      optimizeRec r n
    have happ := optimizeRec_congr r (Function.update r.Rec n (optimizeRec r n)) r.Rec n
      (by rw [Function.update_same]; exact hmeta.1)
      (by rw [Function.update_same]; exact hmeta.2.1)
      (by rw [Function.update_same]; exact hmeta.2.2)
      (by
        rw [Function.update_same, hmeta.2.1, hmeta.2.2]
        intro hne
        exact hgs n (ht ▸ hn) hne)
      (by
        intro c hcm
        have hcn := (wf_children hw hn (ht ▸ hcm)).2.1
        exact Function.update_noteq (by omega) _ _)
      (by
        intro hch
        rw [Function.update_same, optimizeRec_of_leaf r n hch])
    exact happ
  have hR : Function.update (Function.update r.Rec n (optimizeRec r n)) n
      (optimizeRec (optimize r n) n) = Function.update r.Rec n (optimizeRec r n) := by
    rw [hrec, Function.update_idem]
  exact congrArg (fun f => ({ r with Rec := f } : Recons)) hR

lemma downPassAux_idem (t : PTree) (hw : wfTree t) (fuel : Nat) :
    ∀ (r : Recons) (n : Nat), r.tree = t → n < t.nodes.length → GoodSets r →
      downPassAux fuel (downPassAux fuel r n) n = downPassAux fuel r n := by
  induction fuel with
  | zero =>
    intro r n ht hn hgs
    rfl
  | succ fuel ih =>
    intro r n ht hn hgs
    have hGO : GoodSets (optimize r n) := GoodSets_optimize n hgs
    cases hanc : (nodeOf t n).anc with
    | none =>
      have e1 : downPassAux (fuel + 1) r n = optimize r n := by
        unfold downPassAux
        rw [ht, hanc]
      have e2 : downPassAux (fuel + 1) (optimize r n) n = optimize (optimize r n) n := by
        unfold downPassAux
        rw [show (optimize r n).tree = t from ht, hanc]
      rw [e1, e2]
      exact optimize_idem t hw r n ht hn hgs
    | some a =>
      have han := wf_anc hw hn hanc
      have haN : a < t.nodes.length := lt_trans han.1 hn
      have e1 : downPassAux (fuel + 1) r n = downPassAux fuel (optimize r n) a := by
        have hb : downPassAux (fuel + 1) r n =
            match (nodeOf r.tree n).anc with
            | none => optimize r n
            | some b => downPassAux fuel (optimize r n) b := rfl
        rw [hb, ht, hanc]
      rw [e1]
      have hDt : (downPassAux fuel (optimize r n) a).tree = t :=
        (downPassAux_tree fuel (optimize r n) a).trans ht
      have e2 : downPassAux (fuel + 1) (downPassAux fuel (optimize r n) a) n =
          downPassAux fuel (optimize (downPassAux fuel (optimize r n) a) n) a := by
        have hb : downPassAux (fuel + 1) (downPassAux fuel (optimize r n) a) n =
            match (nodeOf (downPassAux fuel (optimize r n) a).tree n).anc with
            | none => optimize (downPassAux fuel (optimize r n) a) n
            | some b => downPassAux fuel (optimize (downPassAux fuel (optimize r n) a) n) b :=
          rfl
        rw [hb, hDt, hanc]
      rw [e2]
      have hframe : (downPassAux fuel (optimize r n) a).Rec n = (optimize r n).Rec n :=
        downPassAux_Rec_off t fuel (optimize r n) a n ht
          (not_mem_ancChainAux hw haN han.1)
      have hOn : (optimize r n).Rec n = optimizeRec r n := optimize_Rec_self r n
      have hDn : (downPassAux fuel (optimize r n) a).Rec n = optimizeRec r n :=
        hframe.trans hOn
      have hmeta := optimizeRec_meta r n
      have hcrec : ∀ c ∈ (nodeOf t n).children,
          (downPassAux fuel (optimize r n) a).Rec c = r.Rec c := by
        intro c hcm
        have hcc := wf_children hw hn hcm
        have h1 : (downPassAux fuel (optimize r n) a).Rec c = (optimize r n).Rec c :=
          downPassAux_Rec_off t fuel (optimize r n) a c ht
            (not_mem_ancChainAux hw haN (lt_trans han.1 hcc.2.1))
        rw [h1, optimize_Rec_ne r (by omega : c ≠ n)]
      have hrec : optimizeRec (downPassAux fuel (optimize r n) a) n = optimizeRec r n := by
        have hshape : downPassAux fuel (optimize r n) a =
            { r with Rec := (downPassAux fuel (optimize r n) a).Rec } :=
          downPassAux_shape fuel (optimize r n) a
        rw [hshape]
        have happ := optimizeRec_congr r (downPassAux fuel (optimize r n) a).Rec r.Rec n
          (by rw [hDn]; exact hmeta.1)
          (by rw [hDn]; exact hmeta.2.1)
          (by rw [hDn]; exact hmeta.2.2)
          (by
            rw [hDn, hmeta.2.1, hmeta.2.2]
            intro hne
            exact hgs n (ht ▸ hn) hne)
          (by
            intro c hcm
            exact hcrec c (by rw [← ht]; exact hcm))
          (by
            intro hch
            rw [hDn, optimizeRec_of_leaf r n hch])
        exact happ
      have hfix : optimize (downPassAux fuel (optimize r n) a) n =
          downPassAux fuel (optimize r n) a := by
        have hval : optimizeRec (downPassAux fuel (optimize r n) a) n =
            (downPassAux fuel (optimize r n) a).Rec n := by
          rw [hrec, ← hDn]
        have hupd2 : Function.update (downPassAux fuel (optimize r n) a).Rec n
            (optimizeRec (downPassAux fuel (optimize r n) a) n) =
            (downPassAux fuel (optimize r n) a).Rec := by
          rw [hval, Function.update_eq_self]
        calc optimize (downPassAux fuel (optimize r n) a) n
            = { downPassAux fuel (optimize r n) a with
                Rec := Function.update (downPassAux fuel (optimize r n) a).Rec n
                  (optimizeRec (downPassAux fuel (optimize r n) a) n) } := rfl
          _ = { downPassAux fuel (optimize r n) a with
                Rec := (downPassAux fuel (optimize r n) a).Rec } := by rw [hupd2]
          _ = downPassAux fuel (optimize r n) a := rfl
      rw [hfix]
      exact ih (optimize r n) a ht haN hGO

/-- C3: `DownPass(n)` is idempotent — a second call leaves the whole
reconstruction (in particular `Rec[0].Cost` and every `Obs`/`Fill`)
exactly as the first call left it.  Hypotheses: a well-formed tree, a
valid node index, and `SetL`/`SetR` addressing children (the invariant
every reachable reconstruction satisfies). -/
theorem DownPass_idem (r : Recons) (n : Nat) (hw : wfTree r.tree)
    (hn : n < r.tree.nodes.length) (hgs : GoodSets r) :
    DownPass (DownPass r n) n = DownPass r n :=
  downPassAux_idem r.tree hw (n + 1) r n rfl hn hgs

/-- Witness for `DownPass_idem` on the concrete reconstruction `or0`. -/
theorem DownPass_idem_witness :
    DownPass (DownPass or0 0) 0 = DownPass or0 0 :=
  DownPass_idem or0 0 (by with_unfolding_all decide)
    (by with_unfolding_all decide) (by with_unfolding_all decide)

/-! Lemmas on the `OR` child loop. -/

lemma orChild_obs (r : Recons) (a : ORAcc) (c : Nat) :
    (orChild r a c).obs = bfUnion a.obs (r.Rec c).obs := by
  unfold orChild
  split <;> rfl

lemma orChild_fill (r : Recons) (a : ORAcc) (c : Nat) :
    (orChild r a c).fill = bfUnion a.fill (r.Rec c).fill := by
  unfold orChild
  split <;> rfl

lemma orChild_cost (r : Recons) (a : ORAcc) (c : Nat) :
    (orChild r a c).cost = a.cost + (r.Rec c).cost := by
  unfold orChild
  split <;> rfl

lemma orFold_obs (r : Recons) (l : List Nat) (a : ORAcc) :
    (l.foldl (orChild r) a).obs =
      l.foldl (fun b c => bfUnion b (r.Rec c).obs) a.obs := by
  induction l generalizing a with
  | nil => rfl
  | cons x xs ih =>
    simp only [List.foldl_cons]
    rw [ih, orChild_obs]

lemma orFold_fill (r : Recons) (l : List Nat) (a : ORAcc) :
    (l.foldl (orChild r) a).fill =
      l.foldl (fun b c => bfUnion b (r.Rec c).fill) a.fill := by
  induction l generalizing a with
  | nil => rfl
  | cons x xs ih =>
    simp only [List.foldl_cons]
    rw [ih, orChild_fill]

lemma orFold_cost (r : Recons) (l : List Nat) (a : ORAcc) :
    (l.foldl (orChild r) a).cost =
      l.foldl (fun q c => q + (r.Rec c).cost) a.cost := by
  induction l generalizing a with
  | nil => rfl
  | cons x xs ih =>
    simp only [List.foldl_cons]
    rw [ih, orChild_cost]

lemma orFold_numDesc (r : Recons) (l : List Nat) (a : ORAcc) :
    (l.foldl (orChild r) a).numDesc =
      a.numDesc + (effectiveChildren r l).length := by
  induction l generalizing a with
  | nil => simp [effectiveChildren]
  | cons x xs ih =>
    simp only [List.foldl_cons]
    by_cases hx : bfCount (r.Rec x).obs = 0
    · have hstep : (orChild r a x).numDesc = a.numDesc := by
        unfold orChild
        rw [if_pos hx]
      have he : effectiveChildren r (x :: xs) = effectiveChildren r xs := by
        simp [effectiveChildren, List.filter_cons, hx]
      rw [ih, hstep, he]
    · have hstep : (orChild r a x).numDesc = a.numDesc + 1 := by
        unfold orChild
        rw [if_neg hx]
      have he : effectiveChildren r (x :: xs) = x :: effectiveChildren r xs := by
        simp [effectiveChildren, List.filter_cons, hx]
      rw [ih, hstep, he]
      simp only [List.length_cons]
      omega

lemma orFoldSets_two (r : Recons) (l : List Nat) (a : ORAcc) {c0 c1 : Nat}
    (hL : a.setL = some c0) (hR : a.setR = some c1) :
    (l.foldl (orChild r) a).setL = some c0 ∧
    (l.foldl (orChild r) a).setR = some c1 := by
  induction l generalizing a with
  | nil => exact ⟨hL, hR⟩
  | cons x xs ih =>
    simp only [List.foldl_cons]
    by_cases hx : bfCount (r.Rec x).obs = 0
    · have h1 : (orChild r a x).setL = a.setL := by unfold orChild; rw [if_pos hx]
      have h2 : (orChild r a x).setR = a.setR := by unfold orChild; rw [if_pos hx]
      exact ih _ (h1.trans hL) (h2.trans hR)
    · have h1 : (orChild r a x).setL = a.setL := by
        unfold orChild
        rw [if_neg hx]
        show (if a.setL = none then some x else a.setL) = a.setL
        rw [if_neg (by rw [hL]; simp)]
      have h2 : (orChild r a x).setR = a.setR := by
        unfold orChild
        rw [if_neg hx]
        show (if a.setL ≠ none ∧ a.setR = none then some x else a.setR) = a.setR
        rw [if_neg (by rw [hR]; simp)]
      exact ih _ (h1.trans hL) (h2.trans hR)

lemma orFoldSets_one (r : Recons) (l : List Nat) (a : ORAcc) {c0 : Nat}
    (hL : a.setL = some c0) (hR : a.setR = none) :
    (l.foldl (orChild r) a).setL = some c0 ∧
    (l.foldl (orChild r) a).setR = (effectiveChildren r l).head? := by
  induction l generalizing a with
  | nil => exact ⟨hL, by simp [effectiveChildren]; exact hR⟩
  | cons x xs ih =>
    simp only [List.foldl_cons]
    by_cases hx : bfCount (r.Rec x).obs = 0
    · have h1 : (orChild r a x).setL = a.setL := by unfold orChild; rw [if_pos hx]
      have h2 : (orChild r a x).setR = a.setR := by unfold orChild; rw [if_pos hx]
      have he : effectiveChildren r (x :: xs) = effectiveChildren r xs := by
        simp [effectiveChildren, List.filter_cons, hx]
      rw [he]
      exact ih _ (h1.trans hL) (h2.trans hR)
    · have h1 : (orChild r a x).setL = some c0 := by
        unfold orChild
        rw [if_neg hx]
        show (if a.setL = none then some x else a.setL) = some c0
        rw [if_neg (by rw [hL]; simp), hL]
      have h2 : (orChild r a x).setR = some x := by
        unfold orChild
        rw [if_neg hx]
        show (if a.setL ≠ none ∧ a.setR = none then some x else a.setR) = some x
        rw [if_pos ⟨by rw [hL]; simp, hR⟩]
      have he : effectiveChildren r (x :: xs) = x :: effectiveChildren r xs := by
        simp [effectiveChildren, List.filter_cons, hx]
      rw [he]
      have := orFoldSets_two r xs _ h1 h2
      exact ⟨this.1, by rw [this.2]; rfl⟩

lemma orFoldSets_none (r : Recons) (l : List Nat) (a : ORAcc)
    (hL : a.setL = none) (hR : a.setR = none) :
    (l.foldl (orChild r) a).setL = (effectiveChildren r l).head? ∧
    (l.foldl (orChild r) a).setR = (effectiveChildren r l).tail.head? := by
  induction l generalizing a with
  | nil =>
    constructor
    · simp [effectiveChildren]; exact hL
    · simp [effectiveChildren]; exact hR
  | cons x xs ih =>
    simp only [List.foldl_cons]
    by_cases hx : bfCount (r.Rec x).obs = 0
    · have h1 : (orChild r a x).setL = a.setL := by unfold orChild; rw [if_pos hx]
      have h2 : (orChild r a x).setR = a.setR := by unfold orChild; rw [if_pos hx]
      have he : effectiveChildren r (x :: xs) = effectiveChildren r xs := by
        simp [effectiveChildren, List.filter_cons, hx]
      rw [he]
      exact ih _ (h1.trans hL) (h2.trans hR)
    · have h1 : (orChild r a x).setL = some x := by
        unfold orChild
        rw [if_neg hx]
        show (if a.setL = none then some x else a.setL) = some x
        rw [if_pos hL]
      have h2 : (orChild r a x).setR = none := by
        unfold orChild
        rw [if_neg hx]
        show (if a.setL ≠ none ∧ a.setR = none then some x else a.setR) = none
        rw [if_neg (by rw [hL]; simp), hR]
      have he : effectiveChildren r (x :: xs) = x :: effectiveChildren r xs := by
        simp [effectiveChildren, List.filter_cons, hx]
      rw [he]
      have := orFoldSets_one r xs _ h1 h2
      exact ⟨this.1, this.2⟩

lemma orStep_Rec_self (r : Recons) (i : Nat) :
    (orStep r i).Rec i = orStepRec r i := by
  simp [orStep]

lemma orStep_Rec_ne (r : Recons) {m i : Nat} (h : m ≠ i) :
    (orStep r i).Rec m = r.Rec m := by
  simp [orStep, Function.update_noteq h]

lemma orFoldSteps_Rec_off (l : List Nat) (r : Recons) (m : Nat) (hm : m ∉ l) :
    (l.foldl orStep r).Rec m = r.Rec m := by
  induction l generalizing r with
  | nil => rfl
  | cons x xs ih =>
    simp only [List.foldl_cons]
    rw [ih _ (fun h => hm (by simp [h])), orStep_Rec_ne r (fun h => hm (by simp [h]))]

lemma orFoldSteps_shape (l : List Nat) (r : Recons) :
    l.foldl orStep r = { r with Rec := (l.foldl orStep r).Rec } := by
  induction l generalizing r with
  | nil => rfl
  | cons x xs ih =>
    simp only [List.foldl_cons]
    exact ih (orStep r x)

lemma orDown_succ (r : Recons) (k : Nat) :
    orDown r (k + 1) = orDown (orStep r k) k := by
  unfold orDown
  rw [List.range_succ]
  simp

lemma orDown_Rec_high (r : Recons) (k i : Nat) (h : k ≤ i) :
    (orDown r k).Rec i = r.Rec i :=
  orFoldSteps_Rec_off _ r i (by
    intro hmem
    rw [List.mem_reverse, List.mem_range] at hmem
    omega)

lemma orDown_shape (r : Recons) (k : Nat) :
    orDown r k = { r with Rec := (orDown r k).Rec } :=
  orFoldSteps_shape _ r

lemma orChild_congr (r : Recons) (f g : Nat → NodeRec) (c : Nat)
    (hfg : f c = g c) (a : ORAcc) :
    orChild { r with Rec := f } a c = orChild { r with Rec := g } a c := by
  unfold orChild
  dsimp only
  rw [hfg]

/-- `orStepRec` at node `i` reads only records with index above `i`
(the children and, through the tallied `setL`/`setR`, the first two
effective children). -/
lemma orStepRec_congr (t : PTree) (hw : wfTree t) (r : Recons)
    (f g : Nat → NodeRec) (i : Nat) (ht : r.tree = t) (hi : i < t.nodes.length)
    (hc : ∀ c, i < c → f c = g c) :
    orStepRec { r with Rec := f } i = orStepRec { r with Rec := g } i := by
  have hcm : ∀ c ∈ (nodeOf r.tree i).children, f c = g c := by
    intro c hcmem
    exact hc c (wf_children hw hi (ht ▸ hcmem)).2.1
  unfold orStepRec
  dsimp only
  by_cases hterm : (nodeOf r.tree i).term ≠ ""
  · rw [if_pos hterm, if_pos hterm]
  · rw [if_neg hterm, if_neg hterm]
    have hacc : (nodeOf r.tree i).children.foldl (orChild { r with Rec := f })
        { obs := bfZero r.raster.fields, fill := bfZero r.raster.fields, cost := 0,
          setL := none, setR := none, numDesc := 0 } =
        (nodeOf r.tree i).children.foldl (orChild { r with Rec := g })
        { obs := bfZero r.raster.fields, fill := bfZero r.raster.fields, cost := 0,
          setL := none, setR := none, numDesc := 0 } :=
      foldl_congr_of_mem _ (fun c hcmem a => orChild_congr r f g c (hcm c hcmem) a)
    rw [hacc]
    set acc := (nodeOf r.tree i).children.foldl (orChild { r with Rec := g })
        { obs := bfZero r.raster.fields, fill := bfZero r.raster.fields, cost := 0,
          setL := none, setR := none, numDesc := 0 } with hacc2
    by_cases hnum : acc.numDesc ≠ 2
    · rw [if_pos hnum, if_pos hnum]
    · rw [if_neg hnum, if_neg hnum]
      have hnum2 : (effectiveChildren { r with Rec := g }
          (nodeOf r.tree i).children).length = 2 := by
        have := orFold_numDesc { r with Rec := g } (nodeOf r.tree i).children
          { obs := bfZero r.raster.fields, fill := bfZero r.raster.fields, cost := 0,
            setL := none, setR := none, numDesc := 0 }
        rw [← hacc2] at this
        have h0 : ({ obs := bfZero r.raster.fields,
                     fill := bfZero r.raster.fields,
                     cost := 0,
                     setL := none,
                     setR := none,
                     numDesc := 0 } : ORAcc).numDesc = 0 := rfl
        omega
      obtain ⟨c0, c1, he⟩ := List.length_eq_two.mp hnum2
      have hsets := orFoldSets_none { r with Rec := g } (nodeOf r.tree i).children
        { obs := bfZero r.raster.fields, fill := bfZero r.raster.fields, cost := 0,
          setL := none, setR := none, numDesc := 0 } rfl rfl
      rw [← hacc2, he] at hsets
      have hsL : acc.setL = some c0 := hsets.1
      have hsR : acc.setR = some c1 := hsets.2
      have hc0m : c0 ∈ (nodeOf r.tree i).children := by
        have : c0 ∈ effectiveChildren { r with Rec := g } (nodeOf r.tree i).children := by
          rw [he]; simp
        exact List.mem_of_mem_filter this
      have hc1m : c1 ∈ (nodeOf r.tree i).children := by
        have : c1 ∈ effectiveChildren { r with Rec := g } (nodeOf r.tree i).children := by
          rw [he]; simp
        exact List.mem_of_mem_filter this
      have hc0i : i < c0 := (wf_children hw hi (ht ▸ hc0m)).2.1
      have hc1i : i < c1 := (wf_children hw hi (ht ▸ hc1m)).2.1
      rw [hsL, hsR]
      simp only [Option.getD_some]
      have hup : ∀ v : NodeRec, ∀ x, x = c0 ∨ x = c1 →
          Function.update f i v x = Function.update g i v x := by
        intro v x hx
        have hxi : x ≠ i := by rcases hx with rfl | rfl <;> omega
        rw [Function.update_noteq hxi, Function.update_noteq hxi]
        rcases hx with rfl | rfl
        · exact hc _ hc0i
        · exact hc _ hc1i
      have hcv : ∀ v : NodeRec, v.setL = Int.ofNat c0 → v.setR = Int.ofNat c1 →
          vicariance { r with Rec := Function.update f i v } i =
          vicariance { r with Rec := Function.update g i v } i := by
        intro v hv0 hv1
        exact vicariance_congr r _ _ i c0 c1
          (by rw [Function.update_same, hv0]; rfl)
          (by rw [Function.update_same, hv1]; rfl)
          (by rw [Function.update_same, hv0]; rfl)
          (by rw [Function.update_same, hv1]; rfl)
          (hup v c0 (Or.inl rfl)) (hup v c1 (Or.inr rfl))
      have hcs : ∀ v : NodeRec, v.setL = Int.ofNat c0 → v.setR = Int.ofNat c1 →
          sympatry { r with Rec := Function.update f i v } i =
          sympatry { r with Rec := Function.update g i v } i := by
        intro v hv0 hv1
        exact sympatry_congr r _ _ i c0 c1
          (by rw [Function.update_same, hv0]; rfl)
          (by rw [Function.update_same, hv1]; rfl)
          (by rw [Function.update_same, hv0]; rfl)
          (by rw [Function.update_same, hv1]; rfl)
          (by rw [Function.update_same, Function.update_same])
          (by rw [Function.update_same, Function.update_same])
          (hup v c0 (Or.inl rfl)) (hup v c1 (Or.inr rfl))
      rw [hcv _ rfl rfl, hcs _ rfl rfl]

/-- After the `OR` loop has processed nodes `k-1, ..., 0`, every
processed record equals the re-run of its own step on the final state:
the step at `i` read only records above `i`, which later steps never
touch. -/
lemma orDown_fix (t : PTree) (hw : wfTree t) (k : Nat) :
    ∀ (r : Recons), r.tree = t → k ≤ t.nodes.length →
      ∀ i, i < k → (orDown r k).Rec i = orStepRec (orDown r k) i := by
  induction k with
  | zero =>
    intro r ht hk i hik
    omega
  | succ k ih =>
    intro r ht hk i hik
    rw [orDown_succ]
    have hrt : (orStep r k).tree = t := ht
    by_cases hik2 : i < k
    · exact ih (orStep r k) hrt (by omega) i hik2
    · have hie : i = k := by omega
      subst hie
      have h1 : (orDown (orStep r i) i).Rec i = (orStep r i).Rec i :=
        orDown_Rec_high _ i i (le_refl i)
      rw [h1, orStep_Rec_self]
      have hshape : orDown (orStep r i) i =
          { r with Rec := (orDown (orStep r i) i).Rec } :=
        orDown_shape (orStep r i) i
      have hcongr : orStepRec { r with Rec := (orDown (orStep r i) i).Rec } i =
          orStepRec { r with Rec := r.Rec } i := by
        apply orStepRec_congr t hw r _ _ i ht (by omega)
        intro c hc
        have hc1 : (orDown (orStep r i) i).Rec c = (orStep r i).Rec c :=
          orDown_Rec_high _ i c (by omega)
        rw [hc1, orStep_Rec_ne r (by omega : c ≠ i)]
      calc orStepRec r i = orStepRec { r with Rec := r.Rec } i := rfl
        _ = orStepRec { r with Rec := (orDown (orStep r i) i).Rec } i := hcongr.symm
        _ = orStepRec (orDown (orStep r i) i) i := by rw [← hshape]

lemma OR_eq_orDown (ras : Raster) (t : PTree) (size sympSize : ℚ) (useLen : Bool) :
    OR ras t size sympSize useLen =
      orDown
        { ID := "or", tree := t, raster := ras, Rec := fun _ => zeroRec,
          UseLen := useLen, Size := size, SympSize := sympSize,
          VicC := 1, SympC := 1, PointC := 1, FoundC := 1 }
        t.nodes.length := rfl

lemma OR_tree (ras : Raster) (t : PTree) (size sympSize : ℚ) (useLen : Bool) :
    (OR ras t size sympSize useLen).tree = t := by
  rw [OR_eq_orDown, orDown_shape]

lemma OR_raster (ras : Raster) (t : PTree) (size sympSize : ℚ) (useLen : Bool) :
    (OR ras t size sympSize useLen).raster = ras := by
  rw [OR_eq_orDown, orDown_shape]

lemma OR_UseLen (ras : Raster) (t : PTree) (size sympSize : ℚ) (useLen : Bool) :
    (OR ras t size sympSize useLen).UseLen = useLen := by
  rw [OR_eq_orDown, orDown_shape]

lemma OR_Size (ras : Raster) (t : PTree) (size sympSize : ℚ) (useLen : Bool) :
    (OR ras t size sympSize useLen).Size = size := by
  rw [OR_eq_orDown, orDown_shape]

/-- Every record of the finished `OR` reconstruction equals the re-run
of its own construction step on the finished state. -/
lemma OR_fix (ras : Raster) (t : PTree) (size sympSize : ℚ) (useLen : Bool)
    (hw : wfTree t) (i : Nat) (hi : i < t.nodes.length) :
    (OR ras t size sympSize useLen).Rec i =
      orStepRec (OR ras t size sympSize useLen) i := by
  rw [OR_eq_orDown]
  exact orDown_fix t hw t.nodes.length _ rfl (le_refl _) i hi

lemma popCount16_zero : popCount16 0 = 0 := rfl

lemma bfCount_bfZero (w : Nat) : bfCount (bfZero w) = 0 := by
  induction w with
  | zero => rfl
  | succ w ih =>
    simp only [bfZero, List.replicate_succ, bfCount, List.map_cons, List.sum_cons,
      popCount16_zero] at ih ⊢
    simpa using ih

lemma orStepRec_leaf_none (r : Recons) (i : Nat)
    (hterm : (nodeOf r.tree i).term ≠ "")
    (hmiss : taxonOf r.raster (nodeOf r.tree i).term = none) :
    orStepRec r i =
      { obs := bfZero r.raster.fields, fill := bfZero r.raster.fields,
        setL := -1, setR := -1, cost := 0, flag := Undef } := by
  unfold orStepRec
  dsimp only
  rw [if_pos hterm, hmiss]

lemma orStepRec_leaf_sets (r : Recons) (i : Nat)
    (hterm : (nodeOf r.tree i).term ≠ "") :
    (orStepRec r i).setL = -1 ∧ (orStepRec r i).setR = -1 := by
  unfold orStepRec
  dsimp only
  rw [if_pos hterm]
  cases taxonOf r.raster (nodeOf r.tree i).term <;> exact ⟨rfl, rfl⟩

lemma orStepRec_internal_obs (r : Recons) (i : Nat)
    (hint : (nodeOf r.tree i).term = "") :
    (orStepRec r i).obs = (nodeOf r.tree i).children.foldl
      (fun b c => bfUnion b (r.Rec c).obs) (bfZero r.raster.fields) := by
  unfold orStepRec
  dsimp only
  rw [if_neg (by simp [hint])]
  split_ifs <;> exact orFold_obs r _ _

lemma orStepRec_internal_fill (r : Recons) (i : Nat)
    (hint : (nodeOf r.tree i).term = "") :
    (orStepRec r i).fill = (nodeOf r.tree i).children.foldl
      (fun b c => bfUnion b (r.Rec c).fill) (bfZero r.raster.fields) := by
  unfold orStepRec
  dsimp only
  rw [if_neg (by simp [hint])]
  split_ifs <;> exact orFold_fill r _ _

/-- The accumulator tally of the `OR` child loop counts the effective
children. -/
lemma orStepAcc_numDesc (r : Recons) (i : Nat) :
    ((nodeOf r.tree i).children.foldl (orChild r)
      { obs := bfZero r.raster.fields, fill := bfZero r.raster.fields, cost := 0,
        setL := none, setR := none, numDesc := 0 }).numDesc =
    (effectiveChildren r (nodeOf r.tree i).children).length := by
  rw [orFold_numDesc]
  simp

lemma orStepRec_internal_not2 (r : Recons) (i : Nat)
    (hint : (nodeOf r.tree i).term = "")
    (hn2 : (effectiveChildren r (nodeOf r.tree i).children).length ≠ 2) :
    orStepRec r i =
      { obs := (nodeOf r.tree i).children.foldl
          (fun b c => bfUnion b (r.Rec c).obs) (bfZero r.raster.fields),
        fill := (nodeOf r.tree i).children.foldl
          (fun b c => bfUnion b (r.Rec c).fill) (bfZero r.raster.fields),
        setL := -1, setR := -1,
        cost := (nodeOf r.tree i).children.foldl
          (fun q c => q + (r.Rec c).cost) 0,
        flag := Undef } := by
  unfold orStepRec
  dsimp only
  rw [if_neg (by simp [hint])]
  rw [if_pos (by rw [orStepAcc_numDesc]; exact hn2)]
  apply NodeRec.ext
  · exact orFold_obs r _ _
  · exact orFold_fill r _ _
  · rfl
  · rfl
  · exact orFold_cost r _ _
  · rfl

lemma orStepRec_internal_two (r : Recons) (i : Nat)
    (hint : (nodeOf r.tree i).term = "") (c0 c1 : Nat)
    (he : effectiveChildren r (nodeOf r.tree i).children = [c0, c1])
    (rec1 : NodeRec)
    (hrec1 : rec1 =
      { obs := (nodeOf r.tree i).children.foldl
          (fun b c => bfUnion b (r.Rec c).obs) (bfZero r.raster.fields),
        fill := (nodeOf r.tree i).children.foldl
          (fun b c => bfUnion b (r.Rec c).fill) (bfZero r.raster.fields),
        setL := Int.ofNat c0, setR := Int.ofNat c1,
        cost := (nodeOf r.tree i).children.foldl
          (fun q c => q + (r.Rec c).cost) 0,
        flag := Undef }) :
    orStepRec r i =
      if vicariance { r with Rec := Function.update r.Rec i rec1 } i +
           sizePenalty r.UseLen r.Size rec1.obs (nodeOf r.tree i).len <
         sympatry { r with Rec := Function.update r.Rec i rec1 } i +
           sizePenalty r.UseLen r.Size rec1.obs (nodeOf r.tree i).len then
        { rec1 with
          flag := Vic,
          cost := rec1.cost +
            (vicariance { r with Rec := Function.update r.Rec i rec1 } i +
             sizePenalty r.UseLen r.Size rec1.obs (nodeOf r.tree i).len) }
      else
        { rec1 with
          flag := SympU,
          cost := rec1.cost +
            (sympatry { r with Rec := Function.update r.Rec i rec1 } i +
             sizePenalty r.UseLen r.Size rec1.obs (nodeOf r.tree i).len) } := by
  unfold orStepRec
  dsimp only
  rw [if_neg (by simp [hint])]
  rw [if_neg (by rw [orStepAcc_numDesc, he]; simp)]
  set acc := (nodeOf r.tree i).children.foldl (orChild r)
    { obs := bfZero r.raster.fields, fill := bfZero r.raster.fields, cost := 0,
      setL := none, setR := none, numDesc := 0 } with hacc
  have hsets := orFoldSets_none r (nodeOf r.tree i).children
    { obs := bfZero r.raster.fields, fill := bfZero r.raster.fields, cost := 0,
      setL := none, setR := none, numDesc := 0 } rfl rfl
  rw [← hacc, he] at hsets
  rw [hsets.1, hsets.2]
  simp only [List.head?_cons, List.tail_cons, Option.getD_some]
  have hobs : acc.obs = rec1.obs := by
    rw [hrec1, hacc]
    exact orFold_obs r _ _
  have hrec : ({ obs := acc.obs,
                 fill := acc.fill,
                 setL := Int.ofNat c0,
                 setR := Int.ofNat c1,
                 cost := acc.cost,
                 flag := Undef } : NodeRec) = rec1 := by
    rw [hrec1]
    apply NodeRec.ext
    · rw [hacc]
      exact orFold_obs r _ _
    · rw [hacc]
      exact orFold_fill r _ _
    · rfl
    · rfl
    · rw [hacc]
      exact orFold_cost r _ _
    · rfl
  have hfill : acc.fill = rec1.fill := by
    rw [hrec1, hacc]
    exact orFold_fill r _ _
  have hcost : acc.cost = rec1.cost := by
    rw [hrec1, hacc]
    exact orFold_cost r _ _
  have hsetL2 : Int.ofNat c0 = rec1.setL := by rw [hrec1]
  have hsetR2 : Int.ofNat c1 = rec1.setR := by rw [hrec1]
  rw [hrec, hobs, hfill, hcost, hsetL2, hsetR2]

/-- C4: for every internal node `i` visited by the `OR` constructor,
`Obs`/`Fill`/`Cost` are the unions and cost sum over all of `i`'s
children; when the number of effective children (children with nonempty
`Obs`) is not exactly two the node is left non-optimizable
(`SetL = SetR = -1`) with no event; otherwise `SetL`/`SetR` are the
first two effective children and the initial flag is `Vic` when the
vicariance cost (each side including the optional size penalty) is
strictly cheaper than full sympatry and `SympU` otherwise, that event's
cost being added to the node's cost. -/
theorem OR_internal_spec (ras : Raster) (t : PTree) (size sympSize : ℚ)
    (useLen : Bool) (R : Recons) (hR : R = OR ras t size sympSize useLen)
    (hw : wfTree t) (i : Nat) (hi : i < t.nodes.length)
    (hint : (nodeOf t i).term = "") :
    (R.Rec i).obs = (nodeOf t i).children.foldl
        (fun b c => bfUnion b (R.Rec c).obs) (bfZero ras.fields) ∧
    (R.Rec i).fill = (nodeOf t i).children.foldl
        (fun b c => bfUnion b (R.Rec c).fill) (bfZero ras.fields) ∧
    ((effectiveChildren R (nodeOf t i).children).length ≠ 2 →
      R.Rec i =
        { obs := (nodeOf t i).children.foldl
            (fun b c => bfUnion b (R.Rec c).obs) (bfZero ras.fields),
          fill := (nodeOf t i).children.foldl
            (fun b c => bfUnion b (R.Rec c).fill) (bfZero ras.fields),
          setL := -1, setR := -1,
          cost := (nodeOf t i).children.foldl (fun q c => q + (R.Rec c).cost) 0,
          flag := Undef }) ∧
    (∀ c0 c1, effectiveChildren R (nodeOf t i).children = [c0, c1] →
      (R.Rec i).setL = Int.ofNat c0 ∧ (R.Rec i).setR = Int.ofNat c1 ∧
      ((vicariance R i + sizePenalty useLen size (R.Rec i).obs (nodeOf t i).len <
          sympatry R i + sizePenalty useLen size (R.Rec i).obs (nodeOf t i).len) →
        (R.Rec i).flag = Vic ∧
        (R.Rec i).cost =
          (nodeOf t i).children.foldl (fun q c => q + (R.Rec c).cost) 0 +
          (vicariance R i +
           sizePenalty useLen size (R.Rec i).obs (nodeOf t i).len)) ∧
      (¬(vicariance R i + sizePenalty useLen size (R.Rec i).obs (nodeOf t i).len <
          sympatry R i + sizePenalty useLen size (R.Rec i).obs (nodeOf t i).len) →
        (R.Rec i).flag = SympU ∧
        (R.Rec i).cost =
          (nodeOf t i).children.foldl (fun q c => q + (R.Rec c).cost) 0 +
          (sympatry R i +
           sizePenalty useLen size (R.Rec i).obs (nodeOf t i).len))) := by
  subst hR
  set R := OR ras t size sympSize useLen with hRdef
  have ht : R.tree = t := OR_tree ras t size sympSize useLen
  have hras : R.raster = ras := OR_raster ras t size sympSize useLen
  have hu : R.UseLen = useLen := OR_UseLen ras t size sympSize useLen
  have hz : R.Size = size := OR_Size ras t size sympSize useLen
  have hfix : R.Rec i = orStepRec R i := OR_fix ras t size sympSize useLen hw i hi
  have hint2 : (nodeOf R.tree i).term = "" := by rw [ht]; exact hint
  have hobs : (R.Rec i).obs = (nodeOf t i).children.foldl
      (fun b c => bfUnion b (R.Rec c).obs) (bfZero ras.fields) := by
    rw [hfix]
    have h := orStepRec_internal_obs R i hint2
    rw [ht, hras] at h
    exact h
  have hfill : (R.Rec i).fill = (nodeOf t i).children.foldl
      (fun b c => bfUnion b (R.Rec c).fill) (bfZero ras.fields) := by
    rw [hfix]
    have h := orStepRec_internal_fill R i hint2
    rw [ht, hras] at h
    exact h
  refine ⟨hobs, hfill, ?_, ?_⟩
  · intro hn2
    rw [hfix]
    have h := orStepRec_internal_not2 R i hint2 (by rw [ht]; exact hn2)
    rw [ht, hras] at h
    exact h
  · intro c0 c1 he
    have he2 : effectiveChildren R (nodeOf R.tree i).children = [c0, c1] := by
      rw [ht]; exact he
    have hc0m : c0 ∈ (nodeOf t i).children := by
      have : c0 ∈ effectiveChildren R (nodeOf t i).children := by rw [he]; simp
      exact List.mem_of_mem_filter this
    have hc1m : c1 ∈ (nodeOf t i).children := by
      have : c1 ∈ effectiveChildren R (nodeOf t i).children := by rw [he]; simp
      exact List.mem_of_mem_filter this
    have hc0i : i < c0 := (wf_children hw hi hc0m).2.1
    have hc1i : i < c1 := (wf_children hw hi hc1m).2.1
    set recX : NodeRec :=
      { obs := (nodeOf R.tree i).children.foldl
          (fun b c => bfUnion b (R.Rec c).obs) (bfZero R.raster.fields),
        fill := (nodeOf R.tree i).children.foldl
          (fun b c => bfUnion b (R.Rec c).fill) (bfZero R.raster.fields),
        setL := Int.ofNat c0, setR := Int.ofNat c1,
        cost := (nodeOf R.tree i).children.foldl
          (fun q c => q + (R.Rec c).cost) 0,
        flag := Undef } with hrecX
    have htwo := orStepRec_internal_two R i hint2 c0 c1 he2 recX hrecX
    have hRi : R.Rec i =
        if vicariance { R with Rec := Function.update R.Rec i recX } i +
             sizePenalty R.UseLen R.Size recX.obs (nodeOf R.tree i).len <
           sympatry { R with Rec := Function.update R.Rec i recX } i +
             sizePenalty R.UseLen R.Size recX.obs (nodeOf R.tree i).len then
          { recX with
            flag := Vic,
            cost := recX.cost +
              (vicariance { R with Rec := Function.update R.Rec i recX } i +
               sizePenalty R.UseLen R.Size recX.obs (nodeOf R.tree i).len) }
        else
          { recX with
            flag := SympU,
            cost := recX.cost +
              (sympatry { R with Rec := Function.update R.Rec i recX } i +
               sizePenalty R.UseLen R.Size recX.obs (nodeOf R.tree i).len) } := by
      rw [hfix]
      exact htwo
    have hRobs : (R.Rec i).obs = recX.obs := by
      rw [hobs, hrecX, ht, hras]
    have hRsetL : (R.Rec i).setL = Int.ofNat c0 := by
      rw [hRi]
      split_ifs <;> rw [hrecX]
    have hRsetR : (R.Rec i).setR = Int.ofNat c1 := by
      rw [hRi]
      split_ifs <;> rw [hrecX]
    have hupL : Function.update R.Rec i recX c0 = R.Rec c0 :=
      Function.update_noteq (by omega) _ _
    have hupR : Function.update R.Rec i recX c1 = R.Rec c1 :=
      Function.update_noteq (by omega) _ _
    have hvs : vicariance { R with Rec := Function.update R.Rec i recX } i =
        vicariance R i := by
      exact vicariance_congr R (Function.update R.Rec i recX) R.Rec i c0 c1
        (by rw [Function.update_same, hrecX]; rfl)
        (by rw [Function.update_same, hrecX]; rfl)
        (by rw [hRsetL]; rfl)
        (by rw [hRsetR]; rfl)
        hupL hupR
    have hss : sympatry { R with Rec := Function.update R.Rec i recX } i =
        sympatry R i := by
      exact sympatry_congr R (Function.update R.Rec i recX) R.Rec i c0 c1
        (by rw [Function.update_same, hrecX]; rfl)
        (by rw [Function.update_same, hrecX]; rfl)
        (by rw [hRsetL]; rfl)
        (by rw [hRsetR]; rfl)
        (by rw [Function.update_same, hRobs])
        (by
          rw [Function.update_same]
          rw [hfill, hrecX, ht, hras])
        hupL hupR
    have hszp : sizePenalty R.UseLen R.Size recX.obs (nodeOf R.tree i).len =
        sizePenalty useLen size ((R.Rec i).obs) (nodeOf t i).len := by
      rw [hu, hz, ht, hRobs]
    set szp := sizePenalty useLen size ((R.Rec i).obs) (nodeOf t i).len with hszpX
    rw [hvs, hss, hszp] at hRi
    have hcost0 : recX.cost =
        (nodeOf t i).children.foldl (fun q c => q + (R.Rec c).cost) 0 := by
      rw [hrecX, ht]
    refine ⟨hRsetL, hRsetR, ?_, ?_⟩
    · intro hlt
      rw [hRi, if_pos hlt]
      exact ⟨rfl, by rw [← hcost0]⟩
    · intro hlt
      rw [hRi, if_neg hlt]
      exact ⟨rfl, by rw [← hcost0]⟩

/-- Witness for `OR_internal_spec` at the root of `or0`: its effective
children are the two leaves, vicariance is cheaper, the root is `Vic`. -/
theorem OR_internal_spec_witness :
    (or0.Rec 0).setL = Int.ofNat 1 ∧ (or0.Rec 0).setR = Int.ofNat 2 ∧
    (or0.Rec 0).flag = Vic := by
  have h := OR_internal_spec ras0 t0 0 0 false or0 rfl
    (by with_unfolding_all decide) 0 (by decide) (by decide)
  have h5 := h.2.2.2 1 2 (by with_unfolding_all decide)
  exact ⟨h5.1, h5.2.1, (h5.2.2.1 (by with_unfolding_all decide)).1⟩

/-- C10: a leaf whose terminal name has no taxon in the raster is left
with empty `Obs`/`Fill` and zero cost by the `OR` constructor, and no
node's `SetL`/`SetR` ever addresses it. -/
theorem OR_missing_taxon_spec (ras : Raster) (t : PTree) (size sympSize : ℚ)
    (useLen : Bool) (R : Recons) (hR : R = OR ras t size sympSize useLen)
    (hw : wfTree t) (i : Nat) (hi : i < t.nodes.length)
    (hterm : (nodeOf t i).term ≠ "")
    (hmiss : taxonOf ras (nodeOf t i).term = none) :
    R.Rec i = { obs := bfZero ras.fields, fill := bfZero ras.fields,
                setL := -1, setR := -1, cost := 0, flag := Undef } ∧
    ∀ j, j < t.nodes.length →
      (R.Rec j).setL ≠ Int.ofNat i ∧ (R.Rec j).setR ≠ Int.ofNat i := by
  subst hR
  set R := OR ras t size sympSize useLen with hRdef
  have ht : R.tree = t := OR_tree ras t size sympSize useLen
  have hras : R.raster = ras := OR_raster ras t size sympSize useLen
  have hzero : R.Rec i =
      { obs := bfZero ras.fields, fill := bfZero ras.fields,
        setL := -1, setR := -1, cost := 0, flag := Undef } := by
    rw [OR_fix ras t size sympSize useLen hw i hi]
    have h := orStepRec_leaf_none R i (by rw [ht]; exact hterm)
      (by rw [ht, hras]; exact hmiss)
    rw [hras] at h
    exact h
  have hcount : bfCount (R.Rec i).obs = 0 := by
    rw [hzero]
    exact bfCount_bfZero ras.fields
  refine ⟨hzero, ?_⟩
  intro j hj
  have hfixj : R.Rec j = orStepRec R j := OR_fix ras t size sympSize useLen hw j hj
  by_cases hjt : (nodeOf t j).term = ""
  · have hjt2 : (nodeOf R.tree j).term = "" := by rw [ht]; exact hjt
    by_cases h2 : (effectiveChildren R (nodeOf R.tree j).children).length = 2
    · obtain ⟨c0, c1, hecl⟩ := List.length_eq_two.mp h2
      have hc0e : c0 ∈ effectiveChildren R (nodeOf R.tree j).children := by
        rw [hecl]; simp
      have hc1e : c1 ∈ effectiveChildren R (nodeOf R.tree j).children := by
        rw [hecl]; simp
      have hc0 : bfCount (R.Rec c0).obs ≠ 0 := by
        have := (List.mem_filter.mp hc0e).2
        simpa [effectiveChildren] using of_decide_eq_true this
      have hc1 : bfCount (R.Rec c1).obs ≠ 0 := by
        have := (List.mem_filter.mp hc1e).2
        simpa [effectiveChildren] using of_decide_eq_true this
      have hc0i : c0 ≠ i := fun h => hc0 (by rw [h]; exact hcount)
      have hc1i : c1 ≠ i := fun h => hc1 (by rw [h]; exact hcount)
      set recX : NodeRec :=
        { obs := (nodeOf R.tree j).children.foldl
            (fun b c => bfUnion b (R.Rec c).obs) (bfZero R.raster.fields),
          fill := (nodeOf R.tree j).children.foldl
            (fun b c => bfUnion b (R.Rec c).fill) (bfZero R.raster.fields),
          setL := Int.ofNat c0, setR := Int.ofNat c1,
          cost := (nodeOf R.tree j).children.foldl
            (fun q c => q + (R.Rec c).cost) 0,
          flag := Undef } with hrecX
      have htwo := orStepRec_internal_two R j hjt2 c0 c1 hecl recX hrecX
      rw [htwo] at hfixj
      constructor
      · intro hcontra
        rw [hfixj] at hcontra
        have : Int.ofNat c0 = Int.ofNat i := by
          rw [← hcontra]
          split_ifs <;> rw [hrecX]
        exact hc0i (Int.ofNat.inj this)
      · intro hcontra
        rw [hfixj] at hcontra
        have : Int.ofNat c1 = Int.ofNat i := by
          rw [← hcontra]
          split_ifs <;> rw [hrecX]
        exact hc1i (Int.ofNat.inj this)
    · have h := orStepRec_internal_not2 R j hjt2 h2
      rw [h] at hfixj
      constructor
      · intro hcontra
        rw [hfixj] at hcontra
        simp at hcontra
      · intro hcontra
        rw [hfixj] at hcontra
        simp at hcontra
  · have hsets := orStepRec_leaf_sets R j (by rw [ht]; exact hjt)
    constructor
    · intro hcontra
      rw [hfixj, hsets.1] at hcontra
      simp at hcontra
    · intro hcontra
      rw [hfixj, hsets.2] at hcontra
      simp at hcontra

/-- Witness for `OR_missing_taxon_spec`: in `or1` the leaf `C` (index 2)
has no raster taxon; its record is empty and the root never selects it. -/
theorem OR_missing_taxon_spec_witness :
    or1.Rec 2 = { obs := bfZero ras0.fields, fill := bfZero ras0.fields,
                  setL := -1, setR := -1, cost := 0, flag := Undef } ∧
    (or1.Rec 0).setL ≠ Int.ofNat 2 ∧ (or1.Rec 0).setR ≠ Int.ofNat 2 := by
  have h := OR_missing_taxon_spec ras0 t1 0 0 false or1 rfl
    (by with_unfolding_all decide) 2 (by decide) (by decide)
    (by with_unfolding_all decide)
  exact ⟨h.1, h.2 0 (by decide)⟩

/-! Lemmas for the flip search: restoration of rejected flips and cost
monotonicity of `flipRecons`. -/

lemma metaEq.symm {a b : NodeRec} (h : metaEq a b) : metaEq b a :=
  ⟨h.1.symm, h.2.1.symm, h.2.2.symm⟩

lemma setFlag_self_flag (r : Recons) (n : Nat) :
    setFlag r n (r.Rec n).flag = r := by
  unfold setFlag
  have h : ({ r.Rec n with flag := (r.Rec n).flag } : NodeRec) = r.Rec n := rfl
  rw [h, Function.update_eq_self]

lemma GoodSets_setFlag (r : Recons) (n e : Nat) (hg : GoodSets r) :
    GoodSets (setFlag r n e) := by
  intro m hm hset
  have htree : (setFlag r n e).tree = r.tree := rfl
  rw [htree] at hm ⊢
  by_cases h : m = n
  · subst h
    rw [setFlag_Rec_self] at hset ⊢
    exact hg m hm hset
  · rw [setFlag_Rec_ne r e h] at hset ⊢
    exact hg m hm hset

lemma GoodSets_DownPass (r : Recons) (n : Nat) (hg : GoodSets r) :
    GoodSets (DownPass r n) :=
  GoodSets_congr (downPassAux_tree (n + 1) r n)
    (fun m => downPassAux_meta (n + 1) r n m) hg

lemma optimize_of_stableRec (r : Recons) (n : Nat)
    (h : optimizeRec r n = r.Rec n) : optimize r n = r := by
  unfold optimize
  rw [h, Function.update_eq_self]

lemma downPassAux_of_stable (t : PTree) (hw : wfTree t) (fuel : Nat) :
    ∀ (r : Recons) (n : Nat), r.tree = t → n < t.nodes.length → Stable r →
      downPassAux fuel r n = r := by
  induction fuel with
  | zero =>
    intro r n ht hn hst
    rfl
  | succ fuel ih =>
    intro r n ht hn hst
    have hopt : optimize r n = r :=
      optimize_of_stableRec r n (hst n (by rw [ht]; exact hn))
    have hb : downPassAux (fuel + 1) r n =
        match (nodeOf r.tree n).anc with
        | none => optimize r n
        | some a => downPassAux fuel (optimize r n) a := rfl
    cases hanc : (nodeOf t n).anc with
    | none =>
      rw [hb, ht, hanc]
      exact hopt
    | some a =>
      rw [hb, ht, hanc, hopt]
      exact ih r a ht (lt_trans (wf_anc hw hn hanc).1 hn) hst

lemma DownPass_of_stable (r : Recons) (n : Nat) (hw : wfTree r.tree)
    (hn : n < r.tree.nodes.length) (hst : Stable r) : DownPass r n = r :=
  downPassAux_of_stable r.tree hw (n + 1) r n rfl hn hst

lemma mem_ancChainAux_head (t : PTree) (fuel n : Nat) (h : 0 < fuel) :
    n ∈ ancChainAux t fuel n := by
  cases fuel with
  | zero => omega
  | succ fuel =>
    unfold ancChainAux
    exact List.mem_cons_self _ _

lemma ancChainAux_closed (t : PTree) (hw : wfTree t) (fuel : Nat) :
    ∀ n, n < t.nodes.length → n < fuel →
      ∀ c ∈ ancChainAux t fuel n, ∀ a, (nodeOf t c).anc = some a →
        a ∈ ancChainAux t fuel n := by
  induction fuel with
  | zero =>
    intro n hn hf
    omega
  | succ fuel ih =>
    intro n hn hf c hc a hanc
    unfold ancChainAux at hc ⊢
    rcases List.mem_cons.mp hc with rfl | hc2
    · have ha := (wf_anc hw hn hanc).1
      rw [hanc]
      exact List.mem_cons_of_mem _ (mem_ancChainAux_head t fuel a (by omega))
    · cases hanc0 : (nodeOf t n).anc with
      | none =>
        rw [hanc0] at hc2
        simp at hc2
      | some a0 =>
        rw [hanc0] at hc2
        have ha0 := (wf_anc hw hn hanc0).1
        exact List.mem_cons_of_mem _ (ih a0 (lt_trans ha0 hn) (by omega) c hc2 a hanc)

lemma optimizeRec_local (r : Recons) (f g : Nat → NodeRec) (m : Nat)
    (hm : f m = g m)
    (hgs : (f m).setL ≠ -1 →
      (f m).setL.toNat ∈ (nodeOf r.tree m).children ∧
      (f m).setR.toNat ∈ (nodeOf r.tree m).children)
    (hc : ∀ c ∈ (nodeOf r.tree m).children, f c = g c) :
    optimizeRec { r with Rec := f } m = optimizeRec { r with Rec := g } m :=
  optimizeRec_congr r f g m (by rw [hm]) (by rw [hm]) (by rw [hm]) hgs hc
    (fun _ => hm)

lemma optimizeRec_optimize_off (t : PTree) (hw : wfTree t) (r : Recons)
    (n m : Nat) (ht : r.tree = t) (hm : m < t.nodes.length) (hmn : m ≠ n)
    (hnotc : n ∉ (nodeOf t m).children) (hg : GoodSets r) :
    optimizeRec (optimize r n) m = optimizeRec r m := by
  have hOshape : optimize r n =
      { r with Rec := Function.update r.Rec n (optimizeRec r n) } := rfl
  rw [hOshape]
  exact optimizeRec_local r (Function.update r.Rec n (optimizeRec r n)) r.Rec m
    (Function.update_noteq hmn _ _)
    (by
      rw [Function.update_noteq hmn]
      intro hne
      exact hg m (by rw [ht]; exact hm) hne)
    (by
      intro c hcm
      rw [ht] at hcm
      exact Function.update_noteq (fun h => hnotc (by rw [← h]; exact hcm)) _ _)

lemma stable_downPassAux (t : PTree) (hw : wfTree t) (fuel : Nat) :
    ∀ (r : Recons) (n : Nat), r.tree = t → n < t.nodes.length → n < fuel →
      GoodSets r →
      (∀ m, m < t.nodes.length → m ∉ ancChainAux t fuel n →
        optimizeRec r m = r.Rec m) →
      Stable (downPassAux fuel r n) := by
  induction fuel with
  | zero =>
    intro r n ht hn hf
    exact absurd hf (Nat.not_lt_zero n)
  | succ fuel ih =>
    intro r n ht hn hf hg hstoff
    have hb : downPassAux (fuel + 1) r n =
        match (nodeOf r.tree n).anc with
        | none => optimize r n
        | some a => downPassAux fuel (optimize r n) a := rfl
    have hmeta := optimizeRec_meta r n
    have hOshape : optimize r n =
        { r with Rec := Function.update r.Rec n (optimizeRec r n) } := rfl
    have hstn : optimizeRec (optimize r n) n = (optimize r n).Rec n := by
      rw [optimize_Rec_self, hOshape]
      exact optimizeRec_congr r (Function.update r.Rec n (optimizeRec r n)) r.Rec n
        (by rw [Function.update_same]; exact hmeta.1)
        (by rw [Function.update_same]; exact hmeta.2.1)
        (by rw [Function.update_same]; exact hmeta.2.2)
        (by
          rw [Function.update_same, hmeta.2.1, hmeta.2.2]
          intro hne
          exact hg n (by rw [ht]; exact hn) hne)
        (by
          intro c hcm
          rw [ht] at hcm
          have hcn := (wf_children hw hn hcm).2.1
          exact Function.update_noteq (by omega) _ _)
        (by
          intro hch
          rw [Function.update_same, optimizeRec_of_leaf r n hch])
    cases hanc : (nodeOf t n).anc with
    | none =>
      rw [hb, ht, hanc]
      intro m hm
      have hmt : m < t.nodes.length := by
        rw [show (optimize r n).tree = t from ht] at hm
        exact hm
      by_cases hmn : m = n
      · subst hmn
        exact hstn
      · have hnotc : n ∉ (nodeOf t m).children := by
          intro hmem
          have h2 := (wf_children hw hmt hmem).2.2
          rw [hanc] at h2
          exact Option.noConfusion h2
        have h3 := optimizeRec_optimize_off t hw r n m ht hmt hmn hnotc hg
        rw [h3, optimize_Rec_ne r hmn]
        apply hstoff m hmt
        intro hmem
        unfold ancChainAux at hmem
        rw [hanc] at hmem
        simp at hmem
        exact hmn hmem
    | some a =>
      rw [hb, ht, hanc]
      obtain ⟨haln, hamem⟩ := wf_anc hw hn hanc
      apply ih (optimize r n) a ht (lt_trans haln hn) (by omega)
        (GoodSets_optimize n hg)
      intro m hmt hmem
      by_cases hmn : m = n
      · subst hmn
        exact hstn
      · have hma : m ≠ a := by
          intro h
          subst h
          exact hmem (mem_ancChainAux_head t fuel m (by omega))
        have hnotc : n ∉ (nodeOf t m).children := by
          intro hmem2
          have h2 := (wf_children hw hmt hmem2).2.2
          rw [hanc] at h2
          exact hma (Option.some.inj h2).symm
        have h3 := optimizeRec_optimize_off t hw r n m ht hmt hmn hnotc hg
        rw [h3, optimize_Rec_ne r hmn]
        apply hstoff m hmt
        intro hmem2
        unfold ancChainAux at hmem2
        rw [hanc] at hmem2
        rcases List.mem_cons.mp hmem2 with h4 | h4
        · exact hmn h4
        · exact hmem h4

lemma Stable_DownPass_setFlag (r : Recons) (n e : Nat)
    (hw : wfTree r.tree) (hn : n < r.tree.nodes.length) (hgs : GoodSets r)
    (hst : Stable r) :
    Stable (DownPass (setFlag r n e) n) := by
  apply stable_downPassAux r.tree hw (n + 1) (setFlag r n e) n rfl hn
    (Nat.lt_succ_self n) (GoodSets_setFlag r n e hgs)
  intro m hm hmem
  have hmn : m ≠ n := by
    intro h
    rw [h] at hmem
    exact hmem (mem_ancChainAux_head r.tree (n + 1) n (Nat.succ_pos n))
  have hnotc : n ∉ (nodeOf r.tree m).children := by
    intro hmem2
    have hancn := (wf_children hw hm hmem2).2.2
    exact hmem (ancChainAux_closed r.tree hw (n + 1) n hn (Nat.lt_succ_self n) n
      (mem_ancChainAux_head r.tree (n + 1) n (Nat.succ_pos n)) m hancn)
  have hcongr : optimizeRec (setFlag r n e) m = optimizeRec r m :=
    optimizeRec_local r (Function.update r.Rec n { r.Rec n with flag := e }) r.Rec m
      (Function.update_noteq hmn _ _)
      (by
        rw [Function.update_noteq hmn]
        intro hne
        exact hgs m hm hne)
      (fun c hcm => Function.update_noteq (fun h => hnotc (by rw [← h]; exact hcm)) _ _)
  rw [hcongr, setFlag_Rec_ne r e hmn]
  exact hst m hm

lemma downPassAux_congr (t : PTree) (hw : wfTree t) (fuel : Nat) :
    ∀ (r : Recons) (f g : Nat → NodeRec) (n : Nat),
      r.tree = t → n < t.nodes.length →
      (∀ m, metaEq (f m) (g m)) →
      (∀ m, m < t.nodes.length → (f m).setL ≠ -1 →
        (f m).setL.toNat ∈ (nodeOf t m).children ∧
        (f m).setR.toNat ∈ (nodeOf t m).children) →
      (∀ m, m ∉ ancChainAux t fuel n → f m = g m) →
      ((nodeOf t n).children = [] → f n = g n) →
      downPassAux fuel { r with Rec := f } n =
        downPassAux fuel { r with Rec := g } n := by
  induction fuel with
  | zero =>
    intro r f g n ht hn hmeta hgs hoff hhead
    have hfg : f = g := funext fun m => hoff m (List.not_mem_nil m)
    rw [hfg]
  | succ fuel ih =>
    intro r f g n ht hn hmeta hgs hoff hhead
    have hORec : optimizeRec { r with Rec := f } n =
        optimizeRec { r with Rec := g } n := by
      apply optimizeRec_congr r f g n (hmeta n).1 (hmeta n).2.1 (hmeta n).2.2
      · intro hne
        rw [show ({ r with Rec := f } : Recons).tree = t from ht]
        exact hgs n hn hne
      · intro c hcm
        rw [show ({ r with Rec := f } : Recons).tree = t from ht] at hcm
        have hcc := wf_children hw hn hcm
        apply hoff
        intro hmem
        exact absurd (ancChainAux_le hw (fuel + 1) n hn c hmem).1
          (not_le.mpr hcc.2.1)
      · intro hch
        rw [show ({ r with Rec := f } : Recons).tree = t from ht] at hch
        exact hhead hch
    have hbf : downPassAux (fuel + 1) { r with Rec := f } n =
        match (nodeOf t n).anc with
        | none => optimize { r with Rec := f } n
        | some a => downPassAux fuel (optimize { r with Rec := f } n) a := by
      rw [← ht]
      rfl
    have hbg : downPassAux (fuel + 1) { r with Rec := g } n =
        match (nodeOf t n).anc with
        | none => optimize { r with Rec := g } n
        | some a => downPassAux fuel (optimize { r with Rec := g } n) a := by
      rw [← ht]
      rfl
    rw [hbf, hbg]
    cases hanc : (nodeOf t n).anc with
    | none =>
      show optimize { r with Rec := f } n = optimize { r with Rec := g } n
      have hupd : Function.update f n (optimizeRec { r with Rec := f } n) =
          Function.update g n (optimizeRec { r with Rec := g } n) := by
        funext m
        by_cases hm : m = n
        · subst hm
          rw [Function.update_same, Function.update_same, hORec]
        · rw [Function.update_noteq hm, Function.update_noteq hm]
          apply hoff
          intro hmem
          unfold ancChainAux at hmem
          rw [hanc] at hmem
          simp at hmem
          exact hm hmem
      show ({ r with Rec := Function.update f n (optimizeRec { r with Rec := f } n) } : Recons) =
        { r with Rec := Function.update g n (optimizeRec { r with Rec := g } n) }
      exact congrArg (fun h => ({ r with Rec := h } : Recons)) hupd
    | some a =>
      show downPassAux fuel (optimize { r with Rec := f } n) a =
        downPassAux fuel (optimize { r with Rec := g } n) a
      obtain ⟨haln, hamem⟩ := wf_anc hw hn hanc
      have hOf : optimize { r with Rec := f } n =
          { r with Rec := Function.update f n (optimizeRec { r with Rec := f } n) } := rfl
      have hOg : optimize { r with Rec := g } n =
          { r with Rec := Function.update g n (optimizeRec { r with Rec := g } n) } := rfl
      rw [hOf, hOg]
      apply ih r _ _ a ht (lt_trans haln hn)
      · intro m
        by_cases hm : m = n
        · subst hm
          rw [Function.update_same, Function.update_same]
          exact ((optimizeRec_meta { r with Rec := f } m).trans (hmeta m)).trans
            ((optimizeRec_meta { r with Rec := g } m).symm)
        · rw [Function.update_noteq hm, Function.update_noteq hm]
          exact hmeta m
      · intro m hm hne
        by_cases hmn : m = n
        · subst hmn
          rw [Function.update_same] at hne ⊢
          have hmm := optimizeRec_meta { r with Rec := f } m
          rw [hmm.2.1] at hne
          rw [hmm.2.1, hmm.2.2]
          exact hgs m hm hne
        · rw [Function.update_noteq hmn] at hne ⊢
          exact hgs m hm hne
      · intro m hmem
        by_cases hmn : m = n
        · subst hmn
          rw [Function.update_same, Function.update_same, hORec]
        · rw [Function.update_noteq hmn, Function.update_noteq hmn]
          apply hoff
          intro hmem2
          unfold ancChainAux at hmem2
          rw [hanc] at hmem2
          rcases List.mem_cons.mp hmem2 with h1 | h2
          · exact hmn h1
          · exact hmem h2
      · intro hch
        rw [hch] at hamem
        exact absurd hamem (List.not_mem_nil n)

lemma setFlag_reshape (r : Recons) (h : Nat → NodeRec) (n e : Nat) :
    setFlag { r with Rec := h } n e =
      { r with Rec := Function.update h n { h n with flag := e } } := rfl

lemma DownPass_setFlag_collapse (r : Recons) (n e e' : Nat)
    (hw : wfTree r.tree) (hn : n < r.tree.nodes.length) (hgs : GoodSets r) :
    DownPass (setFlag (DownPass (setFlag r n e) n) n e') n =
    DownPass (setFlag r n e') n := by
  have hshape : DownPass (setFlag r n e) n =
      { r with Rec := (DownPass (setFlag r n e) n).Rec } :=
    downPassAux_shape (n + 1) (setFlag r n e) n
  have hFmeta : ∀ m, metaEq ((DownPass (setFlag r n e) n).Rec m)
      ((setFlag r n e).Rec m) :=
    fun m => downPassAux_meta (n + 1) (setFlag r n e) n m
  have hFsetL : ((DownPass (setFlag r n e) n).Rec n).setL = (r.Rec n).setL := by
    rw [(hFmeta n).2.1, setFlag_Rec_self]
  have hFsetR : ((DownPass (setFlag r n e) n).Rec n).setR = (r.Rec n).setR := by
    rw [(hFmeta n).2.2, setFlag_Rec_self]
  have hgoal1 : setFlag (DownPass (setFlag r n e) n) n e' =
      { r with Rec := Function.update (DownPass (setFlag r n e) n).Rec n ({ (DownPass (setFlag r n e) n).Rec n with flag := e' } : NodeRec) } := by
    conv_lhs => rw [hshape]
    rfl
  have hgoal2 : setFlag r n e' =
      { r with Rec := Function.update r.Rec n { r.Rec n with flag := e' } } := rfl
  rw [hgoal1, hgoal2]
  show downPassAux (n + 1) _ n = downPassAux (n + 1) _ n
  apply downPassAux_congr r.tree hw (n + 1) r _ _ n rfl hn
  · intro m
    by_cases hm : m = n
    · subst hm
      rw [Function.update_same, Function.update_same]
      exact ⟨rfl, hFsetL, hFsetR⟩
    · rw [Function.update_noteq hm, Function.update_noteq hm]
      have h1 := hFmeta m
      rw [setFlag_Rec_ne r e hm] at h1
      exact h1
  · intro m hm hne
    by_cases hmn : m = n
    · rw [hmn] at hne hm ⊢
      rw [Function.update_same] at hne ⊢
      have h2 : ({ (DownPass (setFlag r n e) n).Rec n with flag := e' } : NodeRec).setL =
          (r.Rec n).setL := hFsetL
      rw [h2] at hne
      rw [h2]
      have h3 : ({ (DownPass (setFlag r n e) n).Rec n with flag := e' } : NodeRec).setR =
          (r.Rec n).setR := hFsetR
      rw [h3]
      exact hgs n hm hne
    · rw [Function.update_noteq hmn] at hne ⊢
      have h1 := hFmeta m
      rw [setFlag_Rec_ne r e hmn] at h1
      rw [h1.2.1] at hne
      rw [h1.2.1, h1.2.2]
      exact hgs m hm hne
  · intro m hmem
    have hmn : m ≠ n := by
      intro h
      rw [h] at hmem
      exact hmem (mem_ancChainAux_head r.tree (n + 1) n (Nat.succ_pos n))
    rw [Function.update_noteq hmn, Function.update_noteq hmn]
    have hFoff : (DownPass (setFlag r n e) n).Rec m = (setFlag r n e).Rec m :=
      downPassAux_Rec_off r.tree (n + 1) (setFlag r n e) n m rfl hmem
    rw [hFoff, setFlag_Rec_ne r e hmn]
  · intro hch
    rw [Function.update_same, Function.update_same]
    have hFleaf : (DownPass (setFlag r n e) n).Rec n = (setFlag r n e).Rec n :=
      downPassAux_Rec_leaf r.tree (n + 1) (setFlag r n e) n n rfl hch
    rw [hFleaf, setFlag_Rec_self]

lemma DownPass_setFlag_restore (r : Recons) (n e : Nat)
    (hw : wfTree r.tree) (hn : n < r.tree.nodes.length) (hgs : GoodSets r)
    (hst : Stable r) :
    DownPass (setFlag (DownPass (setFlag r n e) n) n (r.Rec n).flag) n = r := by
  rw [DownPass_setFlag_collapse r n e (r.Rec n).flag hw hn hgs,
      setFlag_self_flag]
  exact DownPass_of_stable r n hw hn hst

lemma tryEvents_nil (n prev : Nat) (best : ℚ) (r : Recons) :
    tryEvents n prev best [] r = r := rfl

lemma tryEvents_cons (n prev : Nat) (best : ℚ) (e : Nat) (rest : List Nat)
    (r : Recons) :
    tryEvents n prev best (e :: rest) r =
      if e = prev then tryEvents n prev best rest r
      else if Cost (DownPass (setFlag r n e) n) < best then
        DownPass (setFlag r n e) n
      else tryEvents n prev best rest (DownPass (setFlag r n e) n) := rfl

lemma tryEvents_reach (r : Recons) (n prev : Nat) (best : ℚ)
    (hw : wfTree r.tree) (hn : n < r.tree.nodes.length) (hgs : GoodSets r) :
    ∀ (evs : List Nat) (s : Recons),
      (s = r ∨ ∃ e, s = DownPass (setFlag r n e) n) →
      (tryEvents n prev best evs s = r ∨
       ∃ e, tryEvents n prev best evs s = DownPass (setFlag r n e) n) := by
  intro evs
  induction evs with
  | nil =>
    intro s hs
    exact hs
  | cons e rest ih =>
    intro s hs
    rw [tryEvents_cons]
    by_cases hep : e = prev
    · rw [if_pos hep]
      exact ih s hs
    · rw [if_neg hep]
      have hs1 : DownPass (setFlag s n e) n = DownPass (setFlag r n e) n := by
        rcases hs with rfl | ⟨e0, rfl⟩
        · rfl
        · exact DownPass_setFlag_collapse r n e0 e hw hn hgs
      by_cases hc : Cost (DownPass (setFlag s n e) n) < best
      · rw [if_pos hc]
        exact Or.inr ⟨e, hs1⟩
      · rw [if_neg hc]
        exact ih _ (Or.inr ⟨e, hs1⟩)

lemma flipPass_nil (τ : Nat → List Nat) (r : Recons) (best : ℚ) :
    flipPass τ [] r best = (r, none) := rfl

lemma flipPass_cons (τ : Nat → List Nat) (n : Nat) (rest : List Nat)
    (r : Recons) (best : ℚ) :
    flipPass τ (n :: rest) r best =
      if Cost (tryEvents n (r.Rec n).flag best (τ 0) r) < best then
        (tryEvents n (r.Rec n).flag best (τ 0) r,
         some (Cost (tryEvents n (r.Rec n).flag best (τ 0) r)))
      else flipPass (fun j => τ (j + 1)) rest
        (DownPass (setFlag (tryEvents n (r.Rec n).flag best (τ 0) r) n
          (r.Rec n).flag) n) best := rfl

lemma flipPass_spec (t : PTree) (hw : wfTree t) :
    ∀ (nodes : List Nat) (τ : Nat → List Nat) (r : Recons) (best : ℚ),
      r.tree = t → GoodSets r → Stable r →
      (∀ n ∈ nodes, n < t.nodes.length) →
      ((flipPass τ nodes r best).2 = none → (flipPass τ nodes r best).1 = r) ∧
      (∀ b, (flipPass τ nodes r best).2 = some b →
        Cost (flipPass τ nodes r best).1 = b ∧ b < best ∧
        (flipPass τ nodes r best).1.tree = t ∧
        GoodSets (flipPass τ nodes r best).1 ∧
        Stable (flipPass τ nodes r best).1) := by
  intro nodes
  induction nodes with
  | nil =>
    intro τ r best ht hgs hst hns
    rw [flipPass_nil]
    exact ⟨fun _ => rfl, fun b hb => Option.noConfusion hb⟩
  | cons n rest ih =>
    intro τ r best ht hgs hst hns
    have hn : n < t.nodes.length := hns n (List.mem_cons_self n rest)
    have hw' : wfTree r.tree := by rw [ht]; exact hw
    have hn' : n < r.tree.nodes.length := by rw [ht]; exact hn
    set r1 := tryEvents n (r.Rec n).flag best (τ 0) r with hr1def
    have hr1 : r1 = r ∨ ∃ e, r1 = DownPass (setFlag r n e) n := by
      rw [hr1def]
      exact tryEvents_reach r n (r.Rec n).flag best hw' hn' hgs (τ 0) r
        (Or.inl rfl)
    have hr1t : r1.tree = t := by
      rcases hr1 with h | ⟨e, h⟩
      · rw [h]; exact ht
      · rw [h]
        exact (downPassAux_tree (n + 1) (setFlag r n e) n).trans ht
    have hr1g : GoodSets r1 := by
      rcases hr1 with h | ⟨e, h⟩
      · rw [h]; exact hgs
      · rw [h]
        exact GoodSets_DownPass _ n (GoodSets_setFlag r n e hgs)
    have hr1s : Stable r1 := by
      rcases hr1 with h | ⟨e, h⟩
      · rw [h]; exact hst
      · rw [h]
        exact Stable_DownPass_setFlag r n e hw' hn' hgs hst
    have hrestore : DownPass (setFlag r1 n (r.Rec n).flag) n = r := by
      rcases hr1 with h | ⟨e, h⟩
      · rw [h, setFlag_self_flag]
        exact DownPass_of_stable r n hw' hn' hst
      · rw [h]
        exact DownPass_setFlag_restore r n e hw' hn' hgs hst
    rw [flipPass_cons, ← hr1def]
    by_cases hc : Cost r1 < best
    · rw [if_pos hc]
      refine ⟨fun h => Option.noConfusion h, fun b hb => ?_⟩
      have hbb : Cost r1 = b := Option.some.inj hb
      subst hbb
      exact ⟨rfl, hc, hr1t, hr1g, hr1s⟩
    · rw [if_neg hc, hrestore]
      exact ih (fun j => τ (j + 1)) r best ht hgs hst
        (fun m hm => hns m (List.mem_cons_of_mem n hm))

lemma flipLoop_zero (σ : Nat → List Nat) (τ : Nat → Nat → List Nat)
    (r : Recons) (best : ℚ) : flipLoop σ τ 0 r best = r := rfl

lemma flipLoop_succ (σ : Nat → List Nat) (τ : Nat → Nat → List Nat)
    (fuel : Nat) (r : Recons) (best : ℚ) :
    flipLoop σ τ (fuel + 1) r best =
      match flipPass (τ 0) (σ 0) r best with
      | (r1, none) => r1
      | (r1, some b) =>
        flipLoop (fun k => σ (k + 1)) (fun k => τ (k + 1)) fuel r1 b := rfl

lemma flipLoop_le (t : PTree) (hw : wfTree t) :
    ∀ (fuel : Nat) (σ : Nat → List Nat) (τ : Nat → Nat → List Nat)
      (r : Recons) (best : ℚ),
      r.tree = t → GoodSets r → Stable r →
      (∀ k, ∀ n ∈ σ k, n < t.nodes.length) →
      Cost r ≤ best →
      Cost (flipLoop σ τ fuel r best) ≤ best := by
  intro fuel
  induction fuel with
  | zero =>
    intro σ τ r best ht hgs hst hσ hcb
    rw [flipLoop_zero]
    exact hcb
  | succ fuel ih =>
    intro σ τ r best ht hgs hst hσ hcb
    have hspec := flipPass_spec t hw (σ 0) (τ 0) r best ht hgs hst (hσ 0)
    rcases hp : flipPass (τ 0) (σ 0) r best with ⟨r1, o⟩
    cases o with
    | none =>
      rw [flipLoop_succ, hp]
      have h1 := hspec.1 (by rw [hp])
      rw [hp] at h1
      show Cost r1 ≤ best
      rw [show r1 = r from h1]
      exact hcb
    | some b =>
      rw [flipLoop_succ, hp]
      have h2 := hspec.2 b (by rw [hp])
      rw [hp] at h2
      obtain ⟨hcost, hlt, ht1, hg1, hs1⟩ := h2
      show Cost (flipLoop (fun k => σ (k + 1)) (fun k => τ (k + 1)) fuel r1 b) ≤ best
      have h3 := ih (fun k => σ (k + 1)) (fun k => τ (k + 1)) r1 b ht1 hg1 hs1
        (fun k => hσ (k + 1)) (le_of_eq hcost)
      exact le_trans h3 (le_of_lt hlt)

/-- C2: the flip inner loop never increases the total cost.  For every
reconstruction reachable by the program (a well-formed tree, `SetL`/`SetR`
addressing children, and every record stable under re-optimization — the
invariants `OR`, `DownPass` and `Randomize` establish), every node
order, every event order, and every iteration budget,
`Cost (flipRecons ...) ≤ Cost r`: rejected flips are restored exactly
(flag back to `prev` plus `DownPass`), and a flip is accepted only when
it strictly lowers the best cost seen so far. -/
theorem flipRecons_monotone (σ : Nat → List Nat) (τ : Nat → Nat → List Nat)
    (fuel : Nat) (r : Recons) (hw : wfTree r.tree) (hgs : GoodSets r)
    (hst : Stable r) (hσ : ∀ k, ∀ n ∈ σ k, n < r.tree.nodes.length) :
    Cost (flipRecons σ τ fuel r) ≤ Cost r :=
  flipLoop_le r.tree hw fuel σ τ r (Cost r) rfl hgs hst hσ (le_refl _)

/-- Witness for `flipRecons_monotone`: one flip iteration over the root
of `or0`, trying every event in `Events`, does not increase the root
cost. -/
theorem flipRecons_monotone_witness :
    Cost (flipRecons (fun _ => [0]) (fun _ _ => Events) 1 or0) ≤ Cost or0 :=
  flipRecons_monotone (fun _ => [0]) (fun _ _ => Events) 1 or0
    (by with_unfolding_all decide)
    (by with_unfolding_all decide)
    (by with_unfolding_all decide)
    (fun k n hn => by
      simp at hn
      subst hn
      with_unfolding_all decide)

end Evs
